import Mathlib

/-!
Verification of the Evolution & Error-Memory Learning Core
(code_evolution.py, error_categorizer.py, incremental_fixer.py,
success_pattern_learner.py, mql5_error_templates.py).

Modelling conventions of this shallow embedding:
* Python strings are `List Char` (`Str` below); ASCII casing and the ASCII
  whitespace set stand in for Python's `str.lower`/`str.strip`.
* Python floats are rationals; the arithmetic of the code is carried out
  exactly.
* External library calls with no algorithmic content here (hashlib.md5's
  hexdigest, the builtin salted `hash`, `datetime.now`) are function/value
  parameters of the operations that use them.
* `difflib.SequenceMatcher`, `difflib.unified_diff` and the `re` patterns the
  code uses are implemented below with their documented semantics
  (leftmost non-overlapping greedy matches for the concrete regexes;
  Ratcliff-Obershelp matching-block computation for difflib).
* Recursions that consume a non-structural suffix take an explicit fuel
  argument, always called with enough fuel; invariance lemmas recover
  fuel-free equations.
-/

abbrev Str := List Char

def quoteChar : Char := Char.ofNat 39

def isSpaceC (c : Char) : Bool :=
  c = ' ' || c = '\t' || c = '\n' || c = '\r' || c = Char.ofNat 11 || c = Char.ofNat 12

def lowerC (c : Char) : Char :=
  if 'A' ≤ c ∧ c ≤ 'Z' then Char.ofNat (c.toNat + 32) else c

/-- Python `str.lower()` on ASCII text, applied characterwise. -/
def pyLower (l : Str) : Str := l.map lowerC

def dropTrail (p : Char → Bool) (l : Str) : Str := (l.reverse.dropWhile p).reverse

/-- Python `str.strip()`: remove leading and trailing whitespace. -/
def pyStrip (l : Str) : Str := dropTrail isSpaceC (l.dropWhile isSpaceC)

/-- Length of the maximal digit prefix: the span a greedy regex `\d+` takes. -/
def digitsHead : Str → Nat
  | [] => 0
  | c :: r => if c.isDigit then digitsHead r + 1 else 0

/-- One attempted match of `\d+,\d+\)` just after an opening parenthesis:
the suffix after the whole location token when the pattern completes. -/
def tryLoc (l : Str) : Option Str :=
  if digitsHead l = 0 then none
  else
    match l.drop (digitsHead l) with
    | ',' :: r2 =>
      if digitsHead r2 = 0 then none
      else
        match r2.drop (digitsHead r2) with
        | ')' :: r3 => some r3
        | _ => none
    | _ => none

def p1F : Nat → Str → Str
  | 0, l => l
  | _ + 1, [] => []
  | f + 1, c :: rest =>
    if c = '(' then (tryLoc rest).elim (c :: p1F f rest) (fun u => p1F f u)
    else c :: p1F f rest

/-- First pass of `_normalize_error_message`:
`re.sub` of the location pattern by the empty string, one left-to-right
pass of non-overlapping matches. -/
def p1 (l : Str) : Str := p1F l.length l

def lineLit : Str := "line ".toList

def lineX : Str := "line X".toList

def p2F : Nat → Str → Str
  | 0, l => l
  | _ + 1, [] => []
  | f + 1, c :: rest =>
    if (c :: rest).take 5 = lineLit ∧ digitsHead ((c :: rest).drop 5) ≠ 0 then
      lineX ++ p2F f ((c :: rest).drop (5 + digitsHead ((c :: rest).drop 5)))
    else c :: p2F f rest

/-- Second pass: `re.sub` replacing each `line N` token by `line X`
(case-sensitive, greedy digit run). -/
def p2 (l : Str) : Str := p2F l.length l

/-- Split a string at its first quote character: the quote-free part before
it and the remainder after it. -/
def splitQuote : Str → Option (Str × Str)
  | [] => none
  | c :: r =>
    if c = quoteChar then some ([], r)
    else (splitQuote r).elim none (fun ab => some (c :: ab.1, ab.2))

def identLit : Str := "'IDENTIFIER'".toList

def p3F : Nat → Str → Str
  | 0, l => l
  | _ + 1, [] => []
  | f + 1, c :: rest =>
    if c = quoteChar then
      (splitQuote rest).elim (c :: p3F f rest) (fun ab => identLit ++ p3F f ab.2)
    else c :: p3F f rest

/-- Third pass: `re.sub` replacing every single-quoted token by the fixed
placeholder. -/
def p3 (l : Str) : Str := p3F l.length l

/-- CodeEvolution._normalize_error_message: delete location tokens,
canonicalize `line N` tokens, replace quoted identifiers, strip, lower. -/
def normalize_error_message (l : Str) : Str := pyLower (pyStrip (p3 (p2 (p1 l))))


def digitChar (d : Nat) : Char := Char.ofNat (48 + d)

def natDigitsF : Nat → Nat → Str
  | 0, _ => []
  | f + 1, n => if n < 10 then [digitChar n] else natDigitsF f (n / 10) ++ [digitChar (n % 10)]

/-- Python `str(n)` for a natural number: decimal digits, no leading zeros. -/
def natDigits (n : Nat) : Str := natDigitsF (n + 1) n

/-- Evaluate a digit string back to a number (a proof tool for injectivity
of `natDigits`, not part of the embedded code). -/
def digitsVal (l : Str) : Nat := l.foldl (fun acc c => acc * 10 + (c.toNat - 48)) 0

/-- Python `sub in hay` (also what `re.search` is for the literal patterns
of the categorizer): contiguous-substring test. -/
def containsSub : Str → Str → Bool
  | [], pat => pat.isEmpty
  | c :: t, pat => pat.isPrefixOf (c :: t) || containsSub t pat

/-- Case-insensitive containment: `re.search(literal, msg, re.IGNORECASE)`. -/
def containsCI (msg pat : Str) : Bool := containsSub (pyLower msg) (pyLower pat)

def consHead (c : Char) : List Str → List Str
  | [] => [[c]]
  | h :: t => (c :: h) :: t

/-- Python `s.split('\n')`. -/
def pySplitNL : Str → List Str
  | [] => [[]]
  | c :: r => if c = '\n' then [] :: pySplitNL r else consHead c (pySplitNL r)

def lineBreakC (c : Char) : Bool :=
  c = '\n' || c = '\r' || c = Char.ofNat 11 || c = Char.ofNat 12 ||
  c = Char.ofNat 28 || c = Char.ofNat 29 || c = Char.ofNat 30 ||
  c = Char.ofNat 133 || c = Char.ofNat 8232 || c = Char.ofNat 8233

def pySplitlinesF : Nat → Str → Str → List Str
  | 0, _, _ => []
  | _ + 1, cur, [] => if cur.isEmpty then [] else [cur]
  | f + 1, cur, c :: r =>
    if c = '\r' ∧ r.head? = some '\n' then cur :: pySplitlinesF f [] r.tail
    else if lineBreakC c then cur :: pySplitlinesF f [] r
    else pySplitlinesF f (cur ++ [c]) r

/-- Python `s.splitlines()`: split at line boundaries (CRLF as one
boundary), no trailing empty piece. -/
def pySplitlines (l : Str) : List Str := pySplitlinesF (l.length + 1) [] l

/-- Python `'\n'.join(parts)`. -/
def joinNL : List Str → Str
  | [] => []
  | [x] => x
  | x :: r => x ++ '\n' :: joinNL r

/-- Python `sep.join(parts)`. -/
def joinWith (sep : Str) : List Str → Str
  | [] => []
  | [x] => x
  | x :: r => x ++ sep ++ joinWith sep r

/-! ### error_categorizer.py -/

inductive ErrorComplexity
  | SIMPLE
  | MEDIUM
  | COMPLEX
deriving DecidableEq

structure CategorizedError where
  original_message : Str
  error_type : Str
  complexity : ErrorComplexity
  fix_strategy : Str
  fix_template : Str
  priority : Nat
deriving DecidableEq

/-- One entry of a tier's pattern dict. The regexes of the source are
literal strings or top-level alternations of literal strings; `alts` lists
those alternatives, and `templ` is the `str.format` template applied to the
extracted line string (the `{variable}`/`{function}` placeholders are
always filled with `?` by the code). -/
structure ErrorPattern where
  alts : List Str
  etype : Str
  strategy : Str
  templ : Str → Str
  priority : Nat

/-- `re.search(pattern, msg, re.IGNORECASE)` succeeds for one of the
pattern's literal alternatives. -/
def matchesPat (msg : Str) (p : ErrorPattern) : Bool :=
  p.alts.any (fun a => containsCI msg a)

def SIMPLE_PATTERNS : List ErrorPattern :=
  [⟨["';' - semicolon expected".toList], "missing_semicolon".toList,
    "Add missing semicolon".toList,
    fun ln => "Line ".toList ++ ln ++ ": Add ; at end of statement".toList, 1⟩,
   ⟨["')' - ) expected".toList], "missing_parenthesis".toList,
    "Add missing closing parenthesis".toList,
    fun ln => "Line ".toList ++ ln ++ ": Add ) to close function call".toList, 1⟩,
   ⟨["'\x7d' - \x7d expected".toList], "missing_brace".toList,
    "Add missing closing brace".toList,
    fun ln => "Line ".toList ++ ln ++ ": Add \x7d to close block".toList, 1⟩,
   ⟨["undeclared identifier".toList], "undeclared_variable".toList,
    "Declare variable or fix typo".toList,
    fun ln => "Line ".toList ++ ln ++ ": Declare ? or check spelling".toList, 2⟩]

def MEDIUM_PATTERNS : List ErrorPattern :=
  [⟨["wrong parameters count".toList], "wrong_parameters".toList,
    "Fix function parameters".toList,
    fun ln => "Line ".toList ++ ln ++ ": Check ? parameter count".toList, 3⟩,
   ⟨["'MarketInfo' - undeclared identifier".toList], "deprecated_function".toList,
    "Replace with MQL5 equivalent".toList,
    fun ln => "Line ".toList ++ ln ++ ": Replace MarketInfo with SymbolInfo*".toList, 3⟩,
   ⟨["'Ask'".toList, "'Bid' - undeclared identifier".toList], "deprecated_variable".toList,
    "Replace with SymbolInfoDouble".toList,
    fun ln => "Line ".toList ++ ln ++ ": Replace Ask/Bid with SymbolInfoDouble".toList, 3⟩,
   ⟨["'OP_BUY'".toList, "'OP_SELL' - undeclared identifier".toList],
    "deprecated_constant".toList,
    "Replace with ORDER_TYPE_*".toList,
    fun ln => "Line ".toList ++ ln ++ ": Replace OP_* with ORDER_TYPE_*".toList, 4⟩]

def COMPLEX_PATTERNS : List ErrorPattern :=
  [⟨["'OnInit' - function not defined".toList], "missing_function".toList,
    "Add missing OnInit function".toList,
    fun _ => "Add complete OnInit() function with proper initialization".toList, 6⟩,
   ⟨["'OnTick' - function not defined".toList], "missing_function".toList,
    "Add missing OnTick function".toList,
    fun _ => "Add complete OnTick() function with trading logic".toList, 6⟩,
   ⟨["'CTrade' - undeclared identifier".toList], "missing_include".toList,
    "Add Trade.mqh include and CTrade object".toList,
    fun _ => "Add #include <Trade\\\\Trade.mqh> and CTrade trade;".toList, 7⟩]

/-- The first digit group of a completed location-token match, without the
surrounding text: `group(1)` of the categorizer's line-extraction regex. -/
def tryLocDigits (l : Str) : Option Str :=
  if digitsHead l = 0 then none
  else
    match l.drop (digitsHead l) with
    | ',' :: r2 =>
      if digitsHead r2 = 0 then none
      else
        match r2.drop (digitsHead r2) with
        | ')' :: _ => some (l.take (digitsHead l))
        | _ => none
    | _ => none

/-- `re.search` of the location pattern: leftmost completed match wins. -/
def findLineDigits : Str → Option Str
  | [] => none
  | c :: r =>
    if c = '(' then (tryLocDigits r).elim (findLineDigits r) some
    else findLineDigits r

def lineStrOf (msg : Str) : Str := (findLineDigits msg).getD ("unknown".toList)

def mkCategorized (msg : Str) (tier : ErrorComplexity) (p : ErrorPattern) : CategorizedError :=
  ⟨msg, p.etype, tier, p.strategy, p.templ (lineStrOf msg), p.priority⟩

/-- ErrorCategorizer._categorize_single_error: the fixed tier cascade
(simple, then medium, then complex; first matching pattern of a tier wins),
with the unknown-error fallback. -/
def categorize_single_error (msg : Str) : CategorizedError :=
  match SIMPLE_PATTERNS.find? (fun p => matchesPat msg p) with
  | some p => mkCategorized msg ErrorComplexity.SIMPLE p
  | none =>
    match MEDIUM_PATTERNS.find? (fun p => matchesPat msg p) with
    | some p => mkCategorized msg ErrorComplexity.MEDIUM p
    | none =>
      match COMPLEX_PATTERNS.find? (fun p => matchesPat msg p) with
      | some p => mkCategorized msg ErrorComplexity.COMPLEX p
      | none =>
        ⟨msg, "unknown".toList, ErrorComplexity.MEDIUM,
         "Manual investigation required".toList,
         "Line ".toList ++ lineStrOf msg ++ ": Check error manually".toList, 8⟩

/-! ### incremental_fixer.py (with the lookup tables of mql5_error_templates.py) -/

/-- Python list indexing `l[i]`, including negative indices; `none` models
the IndexError. -/
def pyGetI {α : Type} (l : List α) (i : Int) : Option α :=
  if 0 ≤ i then l.get? i.toNat
  else if -(l.length : Int) ≤ i then l.get? ((l.length : Int) + i).toNat
  else none

/-- Python item assignment `l[i] = x`; `none` models the IndexError. -/
def pySetI {α : Type} (l : List α) (i : Int) (x : α) : Option (List α) :=
  if 0 ≤ i then
    if i.toNat < l.length then some (l.set i.toNat x) else none
  else if -(l.length : Int) ≤ i then some (l.set ((l.length : Int) + i).toNat x)
  else none

/-- Python `list.insert(i, x)`: clamps, never raises. -/
def pyInsertI {α : Type} (l : List α) (i : Int) (x : α) : List α :=
  let idx : Nat := if 0 ≤ i then min i.toNat l.length else (max 0 ((l.length : Int) + i)).toNat
  l.take idx ++ x :: l.drop idx

def pyReplaceF : Nat → Str → Str → Str → Str
  | 0, s, _, _ => s
  | _ + 1, [], _, _ => []
  | f + 1, c :: rest, old, new =>
    if old ≠ [] ∧ old.isPrefixOf (c :: rest) then
      new ++ pyReplaceF f ((c :: rest).drop old.length) old new
    else c :: pyReplaceF f rest old new

/-- Python `s.replace(old, new)` for nonempty `old`: every non-overlapping
occurrence, left to right. -/
def pyReplace (s old new : Str) : Str := pyReplaceF s.length s old new

def MARKETINFO_FIXES : List (Str × Str) :=
  [("MarketInfo(_Symbol, MODE_SPREAD)".toList, "SymbolInfoInteger(_Symbol, SYMBOL_SPREAD)".toList),
   ("MarketInfo(_Symbol, MODE_ASK)".toList, "SymbolInfoDouble(_Symbol, SYMBOL_ASK)".toList),
   ("MarketInfo(_Symbol, MODE_BID)".toList, "SymbolInfoDouble(_Symbol, SYMBOL_BID)".toList),
   ("MarketInfo(_Symbol, MODE_POINT)".toList, "SymbolInfoDouble(_Symbol, SYMBOL_POINT)".toList),
   ("MarketInfo(_Symbol, MODE_TICKVALUE)".toList,
    "SymbolInfoDouble(_Symbol, SYMBOL_TRADE_TICK_VALUE)".toList),
   ("MarketInfo(_Symbol, MODE_TICKSIZE)".toList,
    "SymbolInfoDouble(_Symbol, SYMBOL_TRADE_TICK_SIZE)".toList),
   ("MarketInfo(_Symbol, MODE_LOTSIZE)".toList,
    "SymbolInfoDouble(_Symbol, SYMBOL_TRADE_CONTRACT_SIZE)".toList),
   ("MarketInfo(_Symbol, MODE_MINLOT)".toList,
    "SymbolInfoDouble(_Symbol, SYMBOL_VOLUME_MIN)".toList),
   ("MarketInfo(_Symbol, MODE_MAXLOT)".toList,
    "SymbolInfoDouble(_Symbol, SYMBOL_VOLUME_MAX)".toList),
   ("MarketInfo(_Symbol, MODE_LOTSTEP)".toList,
    "SymbolInfoDouble(_Symbol, SYMBOL_VOLUME_STEP)".toList)]

def ACCOUNT_FIXES : List (Str × Str) :=
  [("AccountBalance()".toList, "AccountInfoDouble(ACCOUNT_BALANCE)".toList),
   ("AccountEquity()".toList, "AccountInfoDouble(ACCOUNT_EQUITY)".toList),
   ("AccountMargin()".toList, "AccountInfoDouble(ACCOUNT_MARGIN)".toList),
   ("AccountFreeMargin()".toList, "AccountInfoDouble(ACCOUNT_MARGIN_FREE)".toList),
   ("AccountProfit()".toList, "AccountInfoDouble(ACCOUNT_PROFIT)".toList),
   ("Ask".toList, "SymbolInfoDouble(_Symbol, SYMBOL_ASK)".toList),
   ("Bid".toList, "SymbolInfoDouble(_Symbol, SYMBOL_BID)".toList),
   ("Point".toList, "SymbolInfoDouble(_Symbol, SYMBOL_POINT)".toList),
   ("Digits".toList, "SymbolInfoInteger(_Symbol, SYMBOL_DIGITS)".toList)]

structure CodeChange where
  line_number : Int
  old_content : Str
  new_content : Str
  change_type : Str
  confidence : ℚ
deriving DecidableEq

/-- IncrementalFixer._extract_line_number: first location-token match,
converted to a 0-based index (so a `(0,c)` token yields `-1`). -/
def extract_line_number (msg : Str) : Option Int :=
  (findLineDigits msg).map (fun d => (digitsVal d : Int) - 1)

def fix_missing_semicolon (ln : Int) (line : Str) : Option CodeChange :=
  some ⟨ln, line, dropTrail isSpaceC line ++ [';'], "fix".toList, 95/100⟩

def fix_missing_parenthesis (ln : Int) (line : Str) : Option CodeChange :=
  if line.count '(' > line.count ')' then
    some ⟨ln, line, dropTrail isSpaceC line ++ [')'], "fix".toList, 90/100⟩
  else none

def fix_deprecated_function (ln : Int) (line : Str) : Option CodeChange :=
  (MARKETINFO_FIXES.find? (fun pr => containsSub line pr.1)).map
    (fun pr => ⟨ln, line, pyReplace line pr.1 pr.2, "fix".toList, 85/100⟩)

def fix_deprecated_variable (ln : Int) (line : Str) : Option CodeChange :=
  (ACCOUNT_FIXES.find? (fun pr => containsSub line pr.1)).map
    (fun pr => ⟨ln, line, pyReplace line pr.1 pr.2, "fix".toList, 80/100⟩)

def fix_wrong_parameters (ln : Int) (line : Str) : Option CodeChange :=
  if containsSub line ("iMA(".toList) ∧ line.count ',' < 5 then
    some ⟨ln, line, pyReplace line ("iMA(".toList) ("iMA(_Symbol, _Period, ".toList),
          "fix".toList, 70/100⟩
  else none

/-- IncrementalFixer._fix_single_error; `Except.error` marks a raising
execution (the skip paths return `.ok none`). -/
def fix_single_error (lines : List Str) (error : CategorizedError) :
    Except Unit (Option CodeChange) :=
  match extract_line_number error.original_message with
  | none => .ok none
  | some ln =>
    if (lines.length : Int) ≤ ln then .ok none
    else
      match pyGetI lines ln with
      | none => .error ()
      | some original_line =>
        if error.error_type = "missing_semicolon".toList then
          .ok (fix_missing_semicolon ln original_line)
        else if error.error_type = "missing_parenthesis".toList then
          .ok (fix_missing_parenthesis ln original_line)
        else if error.error_type = "deprecated_function".toList then
          .ok (fix_deprecated_function ln original_line)
        else if error.error_type = "deprecated_variable".toList then
          .ok (fix_deprecated_variable ln original_line)
        else if error.error_type = "wrong_parameters".toList then
          .ok (fix_wrong_parameters ln original_line)
        else .ok none

/-- The fix loop of apply_minimal_fixes: each applied change edits the line
buffer immediately; the change cap is checked before each error. -/
def applyFixLoop (maxChanges : Nat) :
    List CategorizedError → List Str → List CodeChange →
    Except Unit (List Str × List CodeChange)
  | [], lines, changes => .ok (lines, changes)
  | e :: rest, lines, changes =>
    if maxChanges ≤ changes.length then .ok (lines, changes)
    else
      match fix_single_error lines e with
      | .error u => .error u
      | .ok none => applyFixLoop maxChanges rest lines changes
      | .ok (some ch) =>
        if ch.change_type = "fix".toList then
          match pySetI lines ch.line_number ch.new_content with
          | none => .error ()
          | some lines2 => applyFixLoop maxChanges rest lines2 (changes ++ [ch])
        else if ch.change_type = "add".toList then
          applyFixLoop maxChanges rest (pyInsertI lines ch.line_number ch.new_content)
            (changes ++ [ch])
        else applyFixLoop maxChanges rest lines (changes ++ [ch])

/-- IncrementalFixer.apply_minimal_fixes: top-3 priority errors only,
bounded by max_changes_per_iteration (default 5). -/
def apply_minimal_fixes (maxChanges : Nat) (original_code : Str)
    (priority_errors : List CategorizedError) : Except Unit (Str × List CodeChange) :=
  (applyFixLoop maxChanges (priority_errors.take 3) (pySplitNL original_code) []).map
    (fun lc => (joinNL lc.1, lc.2))

structure ChangeImpact where
  similarity : ℚ
  total_changes : Nat
  change_ratio : ℚ
  lines_changed : Int
deriving DecidableEq

/-- IncrementalFixer.should_rollback. -/
def should_rollback (impact : ChangeImpact) (error_improvement : ℚ) : Bool :=
  if impact.change_ratio > 1/10 then true
  else if impact.similarity < 95/100 ∧ error_improvement ≤ 0 then true
  else false

/-! ### difflib (SequenceMatcher with isjunk=None, autojunk=True;
unified_diff with lineterm empty), as used by the code. -/

/-- Ascending indices of x in b (the b2j table), with CPython's autojunk
rule: when b has at least 200 elements, elements occurring in more than
1% + 1 positions are dropped from the table. -/
def b2jOf {α : Type} [DecidableEq α] (b : List α) (x : α) : List Nat :=
  let idxs := (List.range b.length).filter (fun j => b.get? j = some x)
  if 200 ≤ b.length ∧ b.length / 100 + 1 < idxs.length then [] else idxs

def updF (f : Nat → Nat) (j k : Nat) : Nat → Nat := fun x => if x = j then k else f x

/-- The dynamic program of find_longest_match: one row per a-index, with
the strict-improvement rule for the running best block. -/
def flmCore {α : Type} [DecidableEq α] [Inhabited α] (a : List α) (b2j : α → List Nat)
    (alo ahi blo bhi : Nat) : Nat × Nat × Nat :=
  let step := fun (st : (Nat → Nat) × Nat × Nat × Nat) (i : Nat) =>
    let js := (b2j (a.getD i default)).filter (fun j => blo ≤ j ∧ j < bhi)
    let inner := js.foldl
      (fun (st2 : (Nat → Nat) × Nat × Nat × Nat) j =>
        let k := (if j = 0 then 0 else st.1 (j - 1)) + 1
        let nf := updF st2.1 j k
        if st2.2.2.2 < k then (nf, i + 1 - k, j + 1 - k, k)
        else (nf, st2.2.1, st2.2.2.1, st2.2.2.2))
      ((fun _ => 0), st.2.1, st.2.2.1, st.2.2.2)
    inner
  let res := (List.range' alo (ahi - alo)).foldl step ((fun _ => 0), alo, blo, 0)
  (res.2.1, res.2.2.1, res.2.2.2)

def extBackF {α : Type} [DecidableEq α] [Inhabited α] :
    Nat → List α → List α → Nat → Nat → Nat × Nat × Nat → Nat × Nat × Nat
  | 0, _, _, _, _, st => st
  | f + 1, a, b, alo, blo, (besti, bestj, bestsize) =>
    if alo < besti ∧ blo < bestj ∧ a.getD (besti - 1) default = b.getD (bestj - 1) default then
      extBackF f a b alo blo (besti - 1, bestj - 1, bestsize + 1)
    else (besti, bestj, bestsize)

def extFwdF {α : Type} [DecidableEq α] [Inhabited α] :
    Nat → List α → List α → Nat → Nat → Nat × Nat × Nat → Nat × Nat × Nat
  | 0, _, _, _, _, st => st
  | f + 1, a, b, ahi, bhi, (besti, bestj, bestsize) =>
    if besti + bestsize < ahi ∧ bestj + bestsize < bhi ∧
        a.getD (besti + bestsize) default = b.getD (bestj + bestsize) default then
      extFwdF f a b ahi bhi (besti, bestj, bestsize + 1)
    else (besti, bestj, bestsize)

/-- SequenceMatcher.find_longest_match (no junk configured, so the junk
extension loops are no-ops and the equality extensions always apply). -/
def find_longest_match {α : Type} [DecidableEq α] [Inhabited α] (a b : List α)
    (b2j : α → List Nat) (alo ahi blo bhi : Nat) : Nat × Nat × Nat :=
  extFwdF ahi a b ahi bhi (extBackF (flmCore a b2j alo ahi blo bhi).1 a b alo blo
    (flmCore a b2j alo ahi blo bhi))

/-- The LIFO interval splitting of get_matching_blocks; fuel bounds the
node count of the splitting tree (at most 2|a|+1 intervals arise). -/
def gmbCollect {α : Type} [DecidableEq α] [Inhabited α] (a b : List α) (b2j : α → List Nat) :
    Nat → List (Nat × Nat × Nat × Nat) → List (Nat × Nat × Nat)
  | 0, _ => []
  | _ + 1, [] => []
  | f + 1, (alo, ahi, blo, bhi) :: rest =>
    let m := find_longest_match a b b2j alo ahi blo bhi
    if m.2.2 = 0 then gmbCollect a b b2j f rest
    else
      let q1 := if alo < m.1 ∧ blo < m.2.1 then [(alo, m.1, blo, m.2.1)] else []
      let q2 := if m.1 + m.2.2 < ahi ∧ m.2.1 + m.2.2 < bhi then
        [(m.1 + m.2.2, ahi, m.2.1 + m.2.2, bhi)] else []
      m :: gmbCollect a b b2j f (q1 ++ q2 ++ rest)

def lexLe3 (x y : Nat × Nat × Nat) : Bool :=
  x.1 < y.1 ∨ (x.1 = y.1 ∧ (x.2.1 < y.2.1 ∨ (x.2.1 = y.2.1 ∧ x.2.2 ≤ y.2.2)))

def insertLex (x : Nat × Nat × Nat) : List (Nat × Nat × Nat) → List (Nat × Nat × Nat)
  | [] => [x]
  | y :: r => if lexLe3 y x then y :: insertLex x r else x :: y :: r

def sortLex : List (Nat × Nat × Nat) → List (Nat × Nat × Nat)
  | [] => []
  | x :: r => insertLex x (sortLex r)

/-- The adjacent-block merge of get_matching_blocks. -/
def mergeBlocks : Nat × Nat × Nat → List (Nat × Nat × Nat) → List (Nat × Nat × Nat)
  | (i1, j1, k1), [] => if k1 ≠ 0 then [(i1, j1, k1)] else []
  | (i1, j1, k1), (i2, j2, k2) :: rest =>
    if i1 + k1 = i2 ∧ j1 + k1 = j2 then mergeBlocks (i1, j1, k1 + k2) rest
    else (if k1 ≠ 0 then [(i1, j1, k1)] else []) ++ mergeBlocks (i2, j2, k2) rest

/-- SequenceMatcher.get_matching_blocks, sentinel block included. -/
def get_matching_blocks {α : Type} [DecidableEq α] [Inhabited α] (a b : List α) :
    List (Nat × Nat × Nat) :=
  let blocks := sortLex (gmbCollect a b (b2jOf b) (2 * a.length + 2)
    [(0, a.length, 0, b.length)])
  mergeBlocks (0, 0, 0) blocks ++ [(a.length, b.length, 0)]

inductive OpTag
  | replace
  | delete
  | insert
  | equal
deriving DecidableEq

structure Opcode where
  tag : OpTag
  i1 : Nat
  i2 : Nat
  j1 : Nat
  j2 : Nat
deriving DecidableEq

def opcodesGo : Nat → Nat → List (Nat × Nat × Nat) → List Opcode
  | _, _, [] => []
  | i, j, (ai, bj, size) :: rest =>
    (if i < ai ∧ j < bj then [⟨OpTag.replace, i, ai, j, bj⟩]
     else if i < ai then [⟨OpTag.delete, i, ai, j, bj⟩]
     else if j < bj then [⟨OpTag.insert, i, ai, j, bj⟩]
     else []) ++
    (if size ≠ 0 then [⟨OpTag.equal, ai, ai + size, bj, bj + size⟩] else []) ++
    opcodesGo (ai + size) (bj + size) rest

/-- SequenceMatcher.get_opcodes. -/
def get_opcodes {α : Type} [DecidableEq α] [Inhabited α] (a b : List α) : List Opcode :=
  opcodesGo 0 0 (get_matching_blocks a b)

/-- SequenceMatcher.ratio, exactly (2*matches over total length). -/
def smRatio {α : Type} [DecidableEq α] [Inhabited α] (a b : List α) : ℚ :=
  let nmatched := ((get_matching_blocks a b).map (fun t => t.2.2)).sum
  if a.length + b.length = 0 then 1
  else 2 * (nmatched : ℚ) / ((a.length : ℚ) + (b.length : ℚ))

/-- IncrementalFixer.calculate_change_impact. -/
def calculate_change_impact (original modified : Str) : ChangeImpact :=
  let ol := pySplitNL original
  let ml := pySplitNL modified
  let changes := ((get_opcodes ol ml).filter (fun op => op.tag ≠ OpTag.equal)).length
  ⟨smRatio ol ml, changes,
   if ol ≠ [] then (changes : ℚ) / (ol.length : ℚ) else 0,
   (ml.length : Int) - (ol.length : Int)⟩

def trimFirstGroup (n : Nat) : List Opcode → List Opcode
  | ⟨OpTag.equal, i1, i2, j1, j2⟩ :: rest =>
    ⟨OpTag.equal, max i1 (i2 - n), i2, max j1 (j2 - n), j2⟩ :: rest
  | l => l

def trimLastGroup (n : Nat) (codes : List Opcode) : List Opcode :=
  match codes.getLast? with
  | some ⟨OpTag.equal, i1, i2, j1, j2⟩ =>
    codes.dropLast ++ [⟨OpTag.equal, i1, min i2 (i1 + n), j1, min j2 (j1 + n)⟩]
  | _ => codes

def groupGo (n : Nat) : List Opcode → List Opcode → List (List Opcode)
  | group, [] =>
    if group ≠ [] ∧ ¬(group.length = 1 ∧ group.head?.map Opcode.tag = some OpTag.equal) then
      [group]
    else []
  | group, op :: rest =>
    if op.tag = OpTag.equal ∧ 2 * n < op.i2 - op.i1 then
      (group ++ [⟨OpTag.equal, op.i1, min op.i2 (op.i1 + n), op.j1, min op.j2 (op.j1 + n)⟩]) ::
        groupGo n [⟨OpTag.equal, max op.i1 (op.i2 - n), op.i2, max op.j1 (op.j2 - n), op.j2⟩] rest
    else groupGo n (group ++ [op]) rest

/-- SequenceMatcher.get_grouped_opcodes. -/
def get_grouped_opcodes {α : Type} [DecidableEq α] [Inhabited α] (n : Nat) (a b : List α) :
    List (List Opcode) :=
  let codes0 := get_opcodes a b
  let codes1 := if codes0 = [] then [⟨OpTag.equal, 0, 1, 0, 1⟩] else codes0
  groupGo n [] (trimLastGroup n (trimFirstGroup n codes1))

def formatRangeUnified (start stop : Nat) : Str :=
  if stop - start = 1 then natDigits (start + 1)
  else
    natDigits (if stop - start = 0 then start else start + 1) ++ ',' :: natDigits (stop - start)

def sliceOf {α : Type} (l : List α) (lo hi : Nat) : List α := (l.drop lo).take (hi - lo)

def opcodeLines (a b : List Str) (op : Opcode) : List Str :=
  if op.tag = OpTag.equal then (sliceOf a op.i1 op.i2).map (fun l => ' ' :: l)
  else
    (if op.tag = OpTag.replace ∨ op.tag = OpTag.delete then
      (sliceOf a op.i1 op.i2).map (fun l => '-' :: l)
    else []) ++
    (if op.tag = OpTag.replace ∨ op.tag = OpTag.insert then
      (sliceOf b op.j1 op.j2).map (fun l => '+' :: l)
    else [])

def hunkLines (a b : List Str) (g : List Opcode) : List Str :=
  (match g.head?, g.getLast? with
   | some first, some last =>
     "@@ -".toList ++ formatRangeUnified first.i1 last.i2 ++
       " +".toList ++ formatRangeUnified first.j1 last.j2 ++ " @@".toList
   | _, _ => "@@ @@".toList) ::
  g.flatMap (opcodeLines a b)

/-- difflib.unified_diff with fromfile previous, tofile current, empty
lineterm, as _calculate_diff invokes it. -/
def unified_diff (n : Nat) (a b : List Str) : List Str :=
  match get_grouped_opcodes n a b with
  | [] => []
  | gs => "--- previous".toList :: "+++ current".toList :: gs.flatMap (hunkLines a b)

/-- CodeEvolution._calculate_diff: unified diff of the splitlines of the two
codes, first 50 lines only. -/
def calculate_diff (old_code new_code : Str) : Str :=
  joinNL ((unified_diff 3 (pySplitlines old_code) (pySplitlines new_code)).take 50)

/-! ### code_evolution.py -/

structure CompilationError where
  error_type : Str
  error_message : Str
  line_number : Option Int
  code_snippet : Str
  solution_attempt : Str
deriving DecidableEq

structure CodeVersion where
  version_id : Str
  code : Str
  timestamp : Nat
  iteration : Nat
  quality_score : ℚ
  compilation_success : Bool
  review_feedback : Str
  changes_from_previous : Str
  improvement_areas : List Str
  compilation_errors : List CompilationError
  fixed_errors : List Str
deriving DecidableEq

structure EvolutionState where
  session_id : Str
  versions : List CodeVersion
  current_version : Nat
deriving DecidableEq

def emptySession (sid : Str) : EvolutionState := ⟨sid, [], 0⟩

/-- The version id of add_version: `v{iteration}_{md5(code)[:8]}`, with the
md5 hexdigest supplied as a function parameter. -/
def mkVersionId (md5hex : Str → Str) (iteration : Nat) (code : Str) : Str :=
  'v' :: natDigits iteration ++ '_' :: (md5hex code).take 8

/-- CodeEvolution.add_version (the in-memory effect; save_session is I/O).
Returns the new state and the version id the call returns. -/
def add_version (md5hex : Str → Str) (now : Nat) (st : EvolutionState)
    (code : Str) (iteration : Nat) (quality_score : ℚ) (compilation_success : Bool)
    (review_feedback : Str) (improvement_areas : List Str)
    (compilation_errors : List CompilationError) (fixed_errors : List Str) :
    EvolutionState × Str :=
  let version_id := mkVersionId md5hex iteration code
  let changes := match st.versions.getLast? with
    | none => []
    | some prev => calculate_diff prev.code code
  let v : CodeVersion :=
    ⟨version_id, code, now, iteration, quality_score, compilation_success,
     review_feedback, changes, improvement_areas, compilation_errors, fixed_errors⟩
  (⟨st.session_id, st.versions ++ [v], (st.versions ++ [v]).length - 1⟩, version_id)

/-- CodeEvolution.get_current_version (`none` also stands for the
IndexError a corrupted current_version would raise). -/
def get_current_version (st : EvolutionState) : Option CodeVersion :=
  if st.versions = [] then none else st.versions.get? st.current_version

/-- One `dict[k] = dict.get(k, 0) + 1` step on an insertion-ordered dict. -/
def bumpCount (l : List (Str × Nat)) (k : Str) : List (Str × Nat) :=
  match l with
  | [] => [(k, 1)]
  | (k2, c) :: r => if k2 = k then (k2, c + 1) :: r else (k2, c) :: bumpCount r k

def allErrorMessages (st : EvolutionState) : List Str :=
  st.versions.flatMap (fun v => v.compilation_errors.map (fun e => e.error_message))

def groupedErrors (st : EvolutionState) : List (Str × Nat) :=
  (allErrorMessages st).foldl (fun acc m => bumpCount acc (normalize_error_message m)) []

def insertCountDesc (x : Str × Nat) : List (Str × Nat) → List (Str × Nat)
  | [] => [x]
  | y :: r => if x.2 < y.2 then y :: insertCountDesc x r else x :: y :: r

/-- Python `sorted(items, key=count, reverse=True)`: the stable descending
reordering by count. -/
def sortCountDesc : List (Str × Nat) → List (Str × Nat)
  | [] => []
  | x :: r => insertCountDesc x (sortCountDesc r)

/-- CodeEvolution.get_recurring_errors. -/
def get_recurring_errors (st : EvolutionState) : List (Str × Nat) :=
  sortCountDesc (groupedErrors st)

def sectionRecurring (st : EvolutionState) : List Str :=
  let recurring := get_recurring_errors st
  if recurring = [] then []
  else "🚨 WIEDERKEHRENDE FEHLER (UNBEDINGT VERMEIDEN):".toList ::
    (recurring.take 5).map (fun ec =>
      "   ❌ ".toList ++ ec.1 ++ " (aufgetreten ".toList ++ natDigits ec.2 ++ "x)".toList)

def allFixedDescriptors (st : EvolutionState) : List Str :=
  st.versions.flatMap (fun v => v.fixed_errors)

def fixedCounts (st : EvolutionState) : List (Str × Nat) :=
  (allFixedDescriptors st).foldl (fun acc f => bumpCount acc f) []

/-- The descriptors the fixed-errors section of the context lists: the
first 3 entries of the insertion-ordered counts dict. -/
def listedFixed (st : EvolutionState) : List Str :=
  ((fixedCounts st).take 3).map (fun fc => fc.1)

def sectionFixed (st : EvolutionState) : List Str :=
  if fixedCounts st = [] then []
  else "\n✅ ERFOLGREICH BEHOBENE FEHLER (als Referenz):".toList ::
    ((fixedCounts st).take 3).map (fun fc => "   ✓ ".toList ++ fc.1)

/-- Python slice `l[-n:]`. -/
def takeLastN {α : Type} (n : Nat) (l : List α) : List α := l.drop (l.length - n)

def lastFailedVersions (st : EvolutionState) : List CodeVersion :=
  (takeLastN 5 st.versions).filter (fun v => !v.compilation_success)

def sectionFailed (st : EvolutionState) : List Str :=
  let lf := lastFailedVersions st
  if lf = [] then []
  else "\n⚠️ LETZTE KOMPILIERUNGSFEHLER:".toList ::
    (takeLastN 3 lf).flatMap (fun v =>
      ("   Iteration ".toList ++ natDigits v.iteration ++ ":".toList) ::
      (v.compilation_errors.take 2).map (fun e =>
        "     - ".toList ++ e.error_type ++ ": ".toList ++ e.error_message))

def successfulVersions (st : EvolutionState) : List CodeVersion :=
  st.versions.filter (fun v => v.compilation_success)

def sectionSuccess (st : EvolutionState) : List Str :=
  let sv := successfulVersions st
  if sv = [] then []
  else ("\n💡 ERFOLGREICHE PATTERN (aus ".toList ++ natDigits sv.length ++
        " erfolgreichen Versionen):".toList) ::
    (takeLastN 2 sv).filterMap (fun v =>
      if v.fixed_errors = [] then none
      else some ("   Iteration ".toList ++ natDigits v.iteration ++ " behoben: ".toList ++
        joinWith (", ".toList) (v.fixed_errors.take 3)))

/-- CodeEvolution.get_error_learning_context: the four conditional sections,
joined by newlines. -/
def get_error_learning_context (st : EvolutionState) : Str :=
  if st.versions = [] then []
  else joinNL (sectionRecurring st ++ sectionFixed st ++ sectionFailed st ++ sectionSuccess st)

/-- Replay of a call sequence against a session (each element one
add_version call). -/
structure AddArgs where
  now : Nat
  code : Str
  iteration : Nat
  quality_score : ℚ
  compilation_success : Bool
  review_feedback : Str
  improvement_areas : List Str
  compilation_errors : List CompilationError
  fixed_errors : List Str

def runAdds (md5hex : Str → Str) (st : EvolutionState) : List AddArgs → EvolutionState
  | [] => st
  | a :: rest =>
    runAdds md5hex
      (add_version md5hex a.now st a.code a.iteration a.quality_score
        a.compilation_success a.review_feedback a.improvement_areas
        a.compilation_errors a.fixed_errors).1 rest

def strictIncr : List Nat → Bool
  | [] => true
  | [_] => true
  | a :: b :: r => a < b && strictIncr (b :: r)

/-- First-seen deduplication order (the key order of an insertion-ordered
counts dict). -/
def dedupFS (l : List Str) : List Str :=
  l.foldl (fun acc x => if x ∈ acc then acc else acc ++ [x]) []

/-! ### success_pattern_learner.py -/

structure SuccessPattern where
  pattern_id : Str
  error_signature : Str
  original_code_snippet : Str
  fixed_code_snippet : Str
  fix_type : Str
  success_rate : ℚ
  usage_count : Nat
  last_used : Nat
  confidence : ℚ
deriving DecidableEq

/-- Python `str(i)` for an int. -/
def intStr (i : Int) : Str := if i < 0 then '-' :: natDigits (-i).toNat else natDigits i.toNat

structure LineChange where
  ctype : Str
  original : Str
  fixed : Str
  line_number : Nat
deriving DecidableEq

/-- SuccessPatternLearner._extract_changes. -/
def extract_changes (original fixed : Str) : List LineChange :=
  let ol := pySplitNL original
  let fl := pySplitNL fixed
  (get_opcodes ol fl).flatMap (fun op =>
    if op.tag = OpTag.replace then
      if op.i2 - op.i1 = 1 ∧ op.j2 - op.j1 = 1 then
        [⟨"line_replace".toList, ol.getD op.i1 [], fl.getD op.j1 [], op.i1⟩]
      else []
    else if op.tag = OpTag.insert then
      (sliceOf fl op.j1 op.j2).map (fun line => ⟨"line_insert".toList, [], line, op.i1⟩)
    else [])

/-- SuccessPatternLearner._create_error_signature. -/
def create_error_signature (line : Str) (error_messages : List Str) : Option Str :=
  let sigs1 :=
    if containsSub line ("MarketInfo".toList) then ["deprecated_marketinfo".toList] else []
  let sigs2 :=
    if ["OP_BUY".toList, "OP_SELL".toList, "OP_BUYLIMIT".toList].any
        (fun op => containsSub line op) then
      ["deprecated_order_constant".toList]
    else []
  let sigs3 :=
    if ["Ask".toList, "Bid".toList, "Point".toList, "Digits".toList].any
        (fun v => containsSub line v) then
      ["deprecated_account_variable".toList]
    else []
  let joined := joinWith [' '] error_messages
  let sigs4 :=
    if ["expected".toList, "undeclared".toList, "syntax error".toList].any
        (fun m => containsSub joined m) then
      if ¬([';'].isSuffixOf line) ∧ (containsSub line ['='] ∨ containsSub line ("return".toList))
      then ["missing_semicolon".toList]
      else if line.count '(' ≠ line.count ')' then ["missing_parenthesis".toList]
      else []
    else []
  let sigs := sigs1 ++ sigs2 ++ sigs3 ++ sigs4
  if sigs = [] then none else some (joinWith ['_'] sigs)

/-- SuccessPatternLearner._determine_fix_type. -/
def determine_fix_type (original fixed : Str) : Str :=
  if containsSub original ("MarketInfo".toList) ∧ containsSub fixed ("SymbolInfo".toList) then
    "deprecated_function".toList
  else if ["Ask".toList, "Bid".toList, "Point".toList, "Digits".toList].any
      (fun old => containsSub original old) then "deprecated_variable".toList
  else if dropTrail isSpaceC original ++ [';'] = fixed then "syntax_semicolon".toList
  else if original ++ [')'] = fixed then "syntax_parenthesis".toList
  else "unknown".toList

/-- SuccessPatternLearner._create_pattern; the salted builtin `hash` is a
function parameter. -/
def create_pattern (pyHash : Str → Int) (now : Nat) (change : LineChange)
    (error_messages : List Str) : Option SuccessPattern :=
  if change.ctype ≠ "line_replace".toList then none
  else
    let original_line := pyStrip change.original
    let fixed_line := pyStrip change.fixed
    if original_line = [] ∨ fixed_line = [] then none
    else
      match create_error_signature original_line error_messages with
      | none => none
      | some sig =>
        some ⟨intStr (pyHash sig) ++ '_' :: intStr (pyHash original_line), sig,
          original_line, fixed_line, determine_fix_type original_line fixed_line,
          1, 1, now, 8/10⟩

/-- SuccessPatternLearner._update_or_add_pattern on the insertion-ordered
pattern registry. -/
def update_or_add_pattern (now : Nat) (pats : List SuccessPattern) (newp : SuccessPattern) :
    List SuccessPattern :=
  if pats.any (fun p => p.pattern_id = newp.pattern_id) then
    pats.map (fun p =>
      if p.pattern_id = newp.pattern_id then
        { p with
          usage_count := p.usage_count + 1
          last_used := now
          success_rate := (1 - 1/10) * p.success_rate + (1/10) * 1
          confidence := min (95/100) (p.confidence + 5/100) }
      else p)
  else pats ++ [newp]

/-- SuccessPatternLearner.learn_from_success (in-memory effect;
save_patterns is I/O). -/
def learn_from_success (pyHash : Str → Int) (now : Nat) (pats : List SuccessPattern)
    (original_code fixed_code : Str) (compilation_success : Bool)
    (error_messages : List Str) : List SuccessPattern :=
  if !compilation_success then pats
  else
    (extract_changes original_code fixed_code).foldl
      (fun acc change =>
        match create_pattern pyHash now change error_messages with
        | some p => update_or_add_pattern now acc p
        | none => acc) pats

/-! ### A token model of raw error messages.

A raw message is a sequence of tokens: plain text, `(line,col)` location
tokens, `line N` tokens, and single-quoted identifier tokens.  Well-formed
plain and quoted segments contain no digit and no quote character, which is
what makes the three regex passes act token-locally. -/

inductive Tok
  | plain (s : Str)
  | loc (a b : Nat)
  | lineTok (n : Nat)
  | quoted (s : Str)

def renderTok : Tok → Str
  | Tok.plain s => s
  | Tok.loc a b => '(' :: (natDigits a ++ ',' :: (natDigits b ++ [')']))
  | Tok.lineTok n => lineLit ++ natDigits n
  | Tok.quoted s => quoteChar :: (s ++ [quoteChar])

def render : List Tok → Str
  | [] => []
  | t :: ts => renderTok t ++ render ts

def render1Tok : Tok → Str
  | Tok.plain s => s
  | Tok.loc _ _ => []
  | Tok.lineTok n => lineLit ++ natDigits n
  | Tok.quoted s => quoteChar :: (s ++ [quoteChar])

def render1 : List Tok → Str
  | [] => []
  | t :: ts => render1Tok t ++ render1 ts

def render2Tok : Tok → Str
  | Tok.plain s => s
  | Tok.loc _ _ => []
  | Tok.lineTok _ => lineX
  | Tok.quoted s => quoteChar :: (s ++ [quoteChar])

def render2 : List Tok → Str
  | [] => []
  | t :: ts => render2Tok t ++ render2 ts

def canonRenderTok : Tok → Str
  | Tok.plain s => s
  | Tok.loc _ _ => []
  | Tok.lineTok _ => lineX
  | Tok.quoted _ => identLit

def canonRender : List Tok → Str
  | [] => []
  | t :: ts => canonRenderTok t ++ canonRender ts

def canonTok : Tok → Tok
  | Tok.plain s => Tok.plain s
  | Tok.loc _ _ => Tok.loc 0 0
  | Tok.lineTok _ => Tok.lineTok 0
  | Tok.quoted _ => Tok.quoted []

def tokWf : Tok → Prop
  | Tok.plain s => (∀ c ∈ s, c.isDigit = false) ∧ quoteChar ∉ s
  | Tok.loc _ _ => True
  | Tok.lineTok _ => True
  | Tok.quoted s => (∀ c ∈ s, c.isDigit = false) ∧ quoteChar ∉ s


/-! ## Part 2: lemmas and claim theorems. -/

theorem digitsHead_le (l : Str) : digitsHead l ≤ l.length := by
  induction l with
  | nil => simp [digitsHead]
  | cons c r ih =>
    simp only [digitsHead, List.length_cons]
    split <;> omega

theorem tryLoc_length {l u : Str} (h : tryLoc l = some u) : u.length + 4 ≤ l.length := by
  unfold tryLoc at h
  by_cases h1 : digitsHead l = 0
  · simp [h1] at h
  · simp only [h1, if_false] at h
    rcases hd : l.drop (digitsHead l) with _ | ⟨c2, r2⟩
    · rw [hd] at h; simp at h
    · rw [hd] at h
      by_cases hc2 : c2 = ','
      · subst hc2
        by_cases h2 : digitsHead r2 = 0
        · simp [h2] at h
        · simp only [h2, if_false] at h
          rcases hd2 : r2.drop (digitsHead r2) with _ | ⟨c3, r3⟩
          · rw [hd2] at h; simp at h
          · rw [hd2] at h
            by_cases hc3 : c3 = ')'
            · subst hc3
              simp at h
              subst h
              have e1 : (l.drop (digitsHead l)).length = l.length - digitsHead l := by
                simp
              rw [hd] at e1
              have e2 : (r2.drop (digitsHead r2)).length = r2.length - digitsHead r2 := by
                simp
              rw [hd2] at e2
              have g1 := digitsHead_le l
              have g2 := digitsHead_le r2
              simp at e1 e2
              omega
            · simp [hc3] at h
      · simp [hc2] at h

theorem p1F_fuel : ∀ f (l : Str), l.length ≤ f → p1F f l = p1F l.length l := by
  intro f
  induction f using Nat.strong_induction_on with
  | _ f ih =>
    intro l hl
    match f, l with
    | 0, l =>
      have : l = [] := List.length_eq_zero.mp (Nat.le_zero.mp hl)
      subst this; rfl
    | f + 1, [] => rfl
    | f + 1, c :: rest =>
      simp only [List.length_cons] at hl ⊢
      have hr : rest.length ≤ f := by omega
      rw [p1F, p1F]
      by_cases hc : c = '('
      · simp only [hc, if_true]
        rcases ht : tryLoc rest with _ | u
        · simp only [Option.elim_none]
          rw [ih f (by omega) rest hr, ih rest.length (by omega) rest (le_refl _)]
        · have hu := tryLoc_length ht
          simp only [Option.elim_some]
          rw [ih f (by omega) u (by omega), ih rest.length (by omega) u (by omega)]
      · simp only [hc, if_false]
        rw [ih f (by omega) rest hr, ih rest.length (by omega) rest (le_refl _)]

theorem p1_nil : p1 [] = [] := rfl

theorem p1_cons_ne {c : Char} (rest : Str) (h : c ≠ '(') :
    p1 (c :: rest) = c :: p1 rest := by
  show p1F (rest.length + 1) (c :: rest) = c :: p1 rest
  rw [p1F]
  simp [h, p1]

theorem p1_paren_none {rest : Str} (h : tryLoc rest = none) :
    p1 ('(' :: rest) = '(' :: p1 rest := by
  show p1F (rest.length + 1) ('(' :: rest) = '(' :: p1 rest
  rw [p1F]
  simp [h, p1]

theorem p1_paren_some {rest u : Str} (h : tryLoc rest = some u) :
    p1 ('(' :: rest) = p1 u := by
  show p1F (rest.length + 1) ('(' :: rest) = p1 u
  rw [p1F]
  have := tryLoc_length h
  simp only [if_true, h, Option.elim_some]
  rw [p1F_fuel rest.length u (by omega)]
  rfl

theorem p2F_fuel : ∀ f (l : Str), l.length ≤ f → p2F f l = p2F l.length l := by
  intro f
  induction f using Nat.strong_induction_on with
  | _ f ih =>
    intro l hl
    match f, l with
    | 0, l =>
      have : l = [] := List.length_eq_zero.mp (Nat.le_zero.mp hl)
      subst this; rfl
    | f + 1, [] => rfl
    | f + 1, c :: rest =>
      simp only [List.length_cons] at hl ⊢
      rw [p2F, p2F]
      by_cases hm : (c :: rest).take 5 = lineLit ∧ digitsHead ((c :: rest).drop 5) ≠ 0
      · rw [if_pos hm, if_pos hm]
        have hlen5 : 5 ≤ rest.length + 1 := by
          have h5 : ((c :: rest).take 5).length = lineLit.length := by rw [hm.1]
          simpa [lineLit] using h5
        have hdl : (List.drop (5 + digitsHead ((c :: rest).drop 5)) (c :: rest)).length
            ≤ rest.length - 4 := by
          rw [List.length_drop]
          simp only [List.length_cons]
          omega
        congr 1
        rw [ih f (by omega) _ (by omega)]
        exact (ih rest.length (by omega) _ (by omega)).symm
      · rw [if_neg hm, if_neg hm]
        rw [ih f (by omega) rest (by omega), ih rest.length (by omega) rest (le_refl _)]

theorem p2_nil : p2 [] = [] := rfl

theorem p2_match {c : Char} {rest : Str}
    (h : (c :: rest).take 5 = lineLit) (h2 : digitsHead ((c :: rest).drop 5) ≠ 0) :
    p2 (c :: rest) = lineX ++ p2 ((c :: rest).drop (5 + digitsHead ((c :: rest).drop 5))) := by
  show p2F (rest.length + 1) (c :: rest) = _
  rw [p2F, if_pos ⟨h, h2⟩]
  congr 1
  have hdl : (List.drop (5 + digitsHead ((c :: rest).drop 5)) (c :: rest)).length
      ≤ rest.length := by
    rw [List.length_drop]; simp only [List.length_cons]; omega
  rw [p2F_fuel rest.length _ (by omega)]
  rfl

theorem p2_nomatch {c : Char} {rest : Str}
    (h : ¬((c :: rest).take 5 = lineLit ∧ digitsHead ((c :: rest).drop 5) ≠ 0)) :
    p2 (c :: rest) = c :: p2 rest := by
  show p2F (rest.length + 1) (c :: rest) = _
  rw [p2F, if_neg h]
  rw [p2F_fuel rest.length rest (le_refl _)]
  rfl

theorem splitQuote_length {l : Str} {a b : Str} (h : splitQuote l = some (a, b)) :
    b.length < l.length := by
  induction l generalizing a b with
  | nil => simp [splitQuote] at h
  | cons c r ih =>
    rw [splitQuote] at h
    by_cases hc : c = quoteChar
    · simp [hc] at h
      rw [← h.2]
      simp
    · simp only [hc, if_false] at h
      rcases hs : splitQuote r with _ | ⟨a', b'⟩
      · rw [hs] at h; simp at h
      · rw [hs] at h
        simp only [Option.elim_some, Option.some.injEq, Prod.mk.injEq] at h
        have := ih hs
        rw [← h.2]
        simp only [List.length_cons]
        omega

theorem p3F_fuel : ∀ f (l : Str), l.length ≤ f → p3F f l = p3F l.length l := by
  intro f
  induction f using Nat.strong_induction_on with
  | _ f ih =>
    intro l hl
    match f, l with
    | 0, l =>
      have : l = [] := List.length_eq_zero.mp (Nat.le_zero.mp hl)
      subst this; rfl
    | f + 1, [] => rfl
    | f + 1, c :: rest =>
      simp only [List.length_cons] at hl ⊢
      rw [p3F, p3F]
      by_cases hc : c = quoteChar
      · simp only [hc, if_true]
        rcases hs : splitQuote rest with _ | ⟨a, r2⟩
        · simp only [Option.elim_none]
          rw [ih f (by omega) rest (by omega), ih rest.length (by omega) rest (le_refl _)]
        · have := splitQuote_length hs
          simp only [Option.elim_some]
          rw [ih f (by omega) r2 (by omega), ih rest.length (by omega) r2 (by omega)]
      · simp only [hc, if_false]
        rw [ih f (by omega) rest (by omega), ih rest.length (by omega) rest (le_refl _)]

theorem p3_nil : p3 [] = [] := rfl

theorem p3_cons_ne {c : Char} (rest : Str) (h : c ≠ quoteChar) :
    p3 (c :: rest) = c :: p3 rest := by
  show p3F (rest.length + 1) (c :: rest) = _
  rw [p3F]
  simp only [h, if_false]
  rw [p3F_fuel rest.length rest (le_refl _)]
  rfl

theorem p3_quote_none {rest : Str} (h : splitQuote rest = none) :
    p3 (quoteChar :: rest) = quoteChar :: p3 rest := by
  show p3F (rest.length + 1) (quoteChar :: rest) = _
  rw [p3F]
  simp only [if_true, h, Option.elim_none]
  rw [p3F_fuel rest.length rest (le_refl _)]
  rfl

theorem p3_quote_some {rest a r2 : Str} (h : splitQuote rest = some (a, r2)) :
    p3 (quoteChar :: rest) = identLit ++ p3 r2 := by
  show p3F (rest.length + 1) (quoteChar :: rest) = _
  rw [p3F]
  have := splitQuote_length h
  simp only [if_true, h, Option.elim_some]
  rw [p3F_fuel rest.length r2 (by omega)]
  rfl

/-! ### Claim C5: should_rollback. -/

theorem should_rollback_iff (impact : ChangeImpact) (e : ℚ) :
    should_rollback impact e = true ↔
      (1/10 < impact.change_ratio ∨
        (impact.change_ratio ≤ 1/10 ∧ impact.similarity < 95/100 ∧ e ≤ 0)) := by
  unfold should_rollback
  by_cases h1 : impact.change_ratio > 1/10
  · rw [if_pos h1]
    exact iff_of_true rfl (Or.inl h1)
  · rw [if_neg h1]
    by_cases h2 : impact.similarity < 95/100 ∧ e ≤ 0
    · rw [if_pos h2]
      exact iff_of_true rfl (Or.inr ⟨le_of_not_lt h1, h2.1, h2.2⟩)
    · rw [if_neg h2]
      apply iff_of_false
      · simp
      · rintro (hc | ⟨_, hs, he⟩)
        · exact h1 hc
        · exact h2 ⟨hs, he⟩

/-- C5: should_rollback is true exactly when changeRatio > 0.10, or when
changeRatio ≤ 0.10, similarityRatio < 0.95 and errorImprovement ≤ 0; in
particular true at (changeRatio 0.12, similarity 0.99, improvement 5) and
false at (changeRatio 0.05, similarity 0.99, improvement 1). -/
theorem claim_C5 :
    (∀ (impact : ChangeImpact) (e : ℚ),
      should_rollback impact e = true ↔
        (1/10 < impact.change_ratio ∨
          (impact.change_ratio ≤ 1/10 ∧ impact.similarity < 95/100 ∧ e ≤ 0)))
    ∧ should_rollback ⟨99/100, 0, 12/100, 0⟩ 5 = true
    ∧ should_rollback ⟨99/100, 0, 5/100, 0⟩ 1 = false :=
  ⟨should_rollback_iff, by unfold should_rollback; norm_num,
   by unfold should_rollback; norm_num⟩

/-! ### Claim C4: the categorizer cascade. -/

theorem find?_eq_head_filter {α : Type} (p : α → Bool) (l : List α) :
    l.find? p = (l.filter p).head? := by
  induction l with
  | nil => rfl
  | cons x r ih =>
    by_cases hx : p x = true
    · rw [List.find?_cons_of_pos _ hx, List.filter_cons_of_pos hx]
      rfl
    · rw [List.find?_cons_of_neg _ hx, List.filter_cons_of_neg hx]
      exact ih

theorem categorize_simple {msg : Str} {p : ErrorPattern} {ps : List ErrorPattern}
    (h : SIMPLE_PATTERNS.filter (fun q => matchesPat msg q) = p :: ps) :
    categorize_single_error msg = mkCategorized msg ErrorComplexity.SIMPLE p := by
  unfold categorize_single_error
  rw [find?_eq_head_filter, h]
  rfl

theorem categorize_medium {msg : Str} {p : ErrorPattern} {ps : List ErrorPattern}
    (hs : SIMPLE_PATTERNS.filter (fun q => matchesPat msg q) = [])
    (h : MEDIUM_PATTERNS.filter (fun q => matchesPat msg q) = p :: ps) :
    categorize_single_error msg = mkCategorized msg ErrorComplexity.MEDIUM p := by
  unfold categorize_single_error
  rw [find?_eq_head_filter, hs, find?_eq_head_filter, h]
  rfl

theorem categorize_complex {msg : Str} {p : ErrorPattern} {ps : List ErrorPattern}
    (hs : SIMPLE_PATTERNS.filter (fun q => matchesPat msg q) = [])
    (hm : MEDIUM_PATTERNS.filter (fun q => matchesPat msg q) = [])
    (h : COMPLEX_PATTERNS.filter (fun q => matchesPat msg q) = p :: ps) :
    categorize_single_error msg = mkCategorized msg ErrorComplexity.COMPLEX p := by
  unfold categorize_single_error
  rw [find?_eq_head_filter, hs, find?_eq_head_filter, hm, find?_eq_head_filter, h]
  rfl

theorem categorize_fallback {msg : Str}
    (hs : SIMPLE_PATTERNS.filter (fun q => matchesPat msg q) = [])
    (hm : MEDIUM_PATTERNS.filter (fun q => matchesPat msg q) = [])
    (hc : COMPLEX_PATTERNS.filter (fun q => matchesPat msg q) = []) :
    categorize_single_error msg =
      ⟨msg, "unknown".toList, ErrorComplexity.MEDIUM,
       "Manual investigation required".toList,
       "Line ".toList ++ lineStrOf msg ++ ": Check error manually".toList, 8⟩ := by
  unfold categorize_single_error
  rw [find?_eq_head_filter, hs, find?_eq_head_filter, hm, find?_eq_head_filter, hc]
  rfl

/-- C4 counterexample: a message matching no pattern is categorized with
fix strategy "Manual investigation required", not the claim's string
"manual investigation". -/
theorem claim_C4_counterexample :
    (SIMPLE_PATTERNS.filter (fun q => matchesPat ("mystery failure".toList) q) = []
      ∧ MEDIUM_PATTERNS.filter (fun q => matchesPat ("mystery failure".toList) q) = []
      ∧ COMPLEX_PATTERNS.filter (fun q => matchesPat ("mystery failure".toList) q) = [])
    ∧ (categorize_single_error ("mystery failure".toList)).fix_strategy ≠
        "manual investigation".toList := by
  refine ⟨⟨rfl, rfl, rfl⟩, ?_⟩
  intro h
  exact absurd (congrArg List.length h) (by decide)

/-- C4 (amended): the tiers are checked simple, then medium, then complex,
the first matching pattern of a tier (head of the tier's matching sublist)
winning; a message matching no pattern is categorized with kind unknown,
tier medium, priority 8 and strategy "Manual investigation required"; and
categorizing the scenario message yields tier simple, priority 1 and a
template carrying line number 12. -/
theorem claim_C4 :
    (∀ (msg : Str) (p : ErrorPattern) (ps : List ErrorPattern),
      SIMPLE_PATTERNS.filter (fun q => matchesPat msg q) = p :: ps →
        categorize_single_error msg = mkCategorized msg ErrorComplexity.SIMPLE p)
    ∧ (∀ (msg : Str) (p : ErrorPattern) (ps : List ErrorPattern),
      SIMPLE_PATTERNS.filter (fun q => matchesPat msg q) = [] →
      MEDIUM_PATTERNS.filter (fun q => matchesPat msg q) = p :: ps →
        categorize_single_error msg = mkCategorized msg ErrorComplexity.MEDIUM p)
    ∧ (∀ (msg : Str) (p : ErrorPattern) (ps : List ErrorPattern),
      SIMPLE_PATTERNS.filter (fun q => matchesPat msg q) = [] →
      MEDIUM_PATTERNS.filter (fun q => matchesPat msg q) = [] →
      COMPLEX_PATTERNS.filter (fun q => matchesPat msg q) = p :: ps →
        categorize_single_error msg = mkCategorized msg ErrorComplexity.COMPLEX p)
    ∧ (∀ msg : Str,
      SIMPLE_PATTERNS.filter (fun q => matchesPat msg q) = [] →
      MEDIUM_PATTERNS.filter (fun q => matchesPat msg q) = [] →
      COMPLEX_PATTERNS.filter (fun q => matchesPat msg q) = [] →
        categorize_single_error msg =
          ⟨msg, "unknown".toList, ErrorComplexity.MEDIUM,
           "Manual investigation required".toList,
           "Line ".toList ++ lineStrOf msg ++ ": Check error manually".toList, 8⟩)
    ∧ categorize_single_error ("';' - semicolon expected (12,4)".toList) =
        ⟨"';' - semicolon expected (12,4)".toList, "missing_semicolon".toList,
         ErrorComplexity.SIMPLE, "Add missing semicolon".toList,
         "Line 12: Add ; at end of statement".toList, 1⟩ :=
  ⟨fun _ _ _ h => categorize_simple h,
   fun _ _ _ hs h => categorize_medium hs h,
   fun _ _ _ hs hm h => categorize_complex hs hm h,
   fun _ hs hm hc => categorize_fallback hs hm hc,
   by decide⟩

/-! ### Decimal rendering: equations, injectivity, digit characters. -/

theorem natDigitsF_fuel : ∀ f n, n < f → natDigitsF f n = natDigits n := by
  intro f
  induction f using Nat.strong_induction_on with
  | _ f ih =>
    intro n hn
    match f with
    | 0 => omega
    | f + 1 =>
      by_cases h10 : n < 10
      · show natDigitsF (f + 1) n = natDigitsF (n + 1) n
        unfold natDigitsF
        simp [h10]
      · have hrec : n / 10 < n := Nat.div_lt_self (by omega) (by omega)
        show natDigitsF (f + 1) n = natDigitsF (n + 1) n
        rw [natDigitsF, natDigitsF]
        rw [if_neg h10, if_neg h10]
        congr 1
        rw [ih f (by omega) (n / 10) (by omega)]
        rw [ih n (by omega) (n / 10) (by omega)]

theorem natDigits_lt10 {n : Nat} (h : n < 10) : natDigits n = [digitChar n] := by
  unfold natDigits natDigitsF
  simp [h]

theorem natDigits_ge10 {n : Nat} (h : 10 ≤ n) :
    natDigits n = natDigits (n / 10) ++ [digitChar (n % 10)] := by
  show natDigitsF (n + 1) n = _
  rw [natDigitsF, if_neg (by omega)]
  congr 1
  have hd : n / 10 < n := Nat.div_lt_self (by omega) (by norm_num)
  exact natDigitsF_fuel n (n / 10) (by omega)

theorem digitChar_isDigit {d : Nat} (h : d < 10) : (digitChar d).isDigit = true := by
  interval_cases d <;> decide

theorem digitChar_toNat {d : Nat} (h : d < 10) : (digitChar d).toNat = 48 + d := by
  interval_cases d <;> decide

theorem natDigits_all_digits : ∀ n, ∀ c ∈ natDigits n, c.isDigit = true := by
  intro n
  induction n using Nat.strong_induction_on with
  | _ n ih =>
    intro c hc
    by_cases h10 : n < 10
    · rw [natDigits_lt10 h10] at hc
      simp at hc
      subst hc
      exact digitChar_isDigit h10
    · rw [natDigits_ge10 (by omega)] at hc
      rw [List.mem_append] at hc
      rcases hc with hc | hc
      · exact ih (n / 10) (Nat.div_lt_self (by omega) (by omega)) c hc
      · simp at hc
        subst hc
        exact digitChar_isDigit (Nat.mod_lt _ (by omega))

theorem natDigits_ne_nil (n : Nat) : natDigits n ≠ [] := by
  by_cases h10 : n < 10
  · rw [natDigits_lt10 h10]; simp
  · rw [natDigits_ge10 (by omega)]; simp

theorem digitsVal_append_one (a : Str) (c : Char) :
    digitsVal (a ++ [c]) = digitsVal a * 10 + (c.toNat - 48) := by
  unfold digitsVal
  rw [List.foldl_append]
  rfl

theorem digitsVal_natDigits : ∀ n, digitsVal (natDigits n) = n := by
  intro n
  induction n using Nat.strong_induction_on with
  | _ n ih =>
    by_cases h10 : n < 10
    · rw [natDigits_lt10 h10]
      show digitsVal ([] ++ [digitChar n]) = n
      rw [digitsVal_append_one, digitChar_toNat h10]
      simp [digitsVal]
    · rw [natDigits_ge10 (by omega), digitsVal_append_one,
        ih (n / 10) (Nat.div_lt_self (by omega) (by omega)),
        digitChar_toNat (Nat.mod_lt _ (by omega))]
      omega

theorem natDigits_inj {m n : Nat} (h : natDigits m = natDigits n) : m = n := by
  have := congrArg digitsVal h
  rwa [digitsVal_natDigits, digitsVal_natDigits] at this

theorem underscore_not_mem_natDigits (n : Nat) : '_' ∉ natDigits n := by
  intro h
  have := natDigits_all_digits n _ h
  simp at this

theorem newline_not_mem_natDigits (n : Nat) : '\n' ∉ natDigits n := by
  intro h
  have := natDigits_all_digits n _ h
  simp at this

/-! ### Splitting and joining on newlines. -/

theorem pySplitNL_noNL {x : Str} (h : '\n' ∉ x) : pySplitNL x = [x] := by
  induction x with
  | nil => rfl
  | cons c r ih =>
    rw [pySplitNL]
    rw [if_neg (by intro hc; exact h (by simp [hc]))]
    rw [ih (by intro hr; exact h (by simp [hr]))]
    rfl

theorem pySplitNL_append_nl {x : Str} (rest : Str) (h : '\n' ∉ x) :
    pySplitNL (x ++ '\n' :: rest) = x :: pySplitNL rest := by
  induction x with
  | nil => simp [pySplitNL]
  | cons c r ih =>
    have hc : c ≠ '\n' := by intro hc; exact h (by simp [hc])
    show pySplitNL (c :: (r ++ '\n' :: rest)) = _
    rw [pySplitNL, if_neg hc, ih (by intro hr; exact h (by simp [hr]))]
    rfl

theorem pySplitNL_joinNL (parts : List Str) (hp : parts ≠ [])
    (h : ∀ p ∈ parts, '\n' ∉ p) :
    pySplitNL (joinNL parts) = parts := by
  induction parts with
  | nil => exact absurd rfl hp
  | cons x r ih =>
    match r with
    | [] =>
      show pySplitNL (joinNL [x]) = [x]
      rw [joinNL]
      exact pySplitNL_noNL (h x (by simp))
    | y :: r2 =>
      show pySplitNL (x ++ '\n' :: joinNL (y :: r2)) = x :: y :: r2
      rw [pySplitNL_append_nl _ (h x (by simp))]
      rw [ih (by simp) (fun p hpmem => h p (by simp [hpmem]))]

theorem pySplitNL_joinNL_length (parts : List Str) (h : ∀ p ∈ parts, '\n' ∉ p) :
    (pySplitNL (joinNL parts)).length = max parts.length 1 := by
  match parts with
  | [] => rfl
  | x :: r =>
    rw [pySplitNL_joinNL (x :: r) (by simp) h]
    simp only [List.length_cons]
    omega


/-! ### No line of a unified diff contains a newline character. -/

theorem pySplitlinesF_noNL : ∀ (f : Nat) (cur l : Str), '\n' ∉ cur →
    ∀ p ∈ pySplitlinesF f cur l, '\n' ∉ p := by
  intro f
  induction f with
  | zero => intro cur l _ p hp; simp [pySplitlinesF] at hp
  | succ f ih =>
    intro cur l hcur p hp
    match l with
    | [] =>
      rw [pySplitlinesF] at hp
      split at hp
      · simp at hp
      · simp at hp; subst hp; exact hcur
    | c :: r =>
      rw [pySplitlinesF] at hp
      by_cases h1 : c = '\r' ∧ r.head? = some '\n'
      · rw [if_pos h1] at hp
        rcases List.mem_cons.mp hp with hp | hp
        · subst hp; exact hcur
        · exact ih [] r.tail (by simp) p hp
      · rw [if_neg h1] at hp
        by_cases h2 : lineBreakC c = true
        · rw [if_pos h2] at hp
          rcases List.mem_cons.mp hp with hp | hp
          · subst hp; exact hcur
          · exact ih [] r (by simp) p hp
        · rw [if_neg h2] at hp
          have hc : c ≠ '\n' := by
            intro hc; subst hc; exact h2 (by decide)
          refine ih (cur ++ [c]) r ?_ p hp
          intro hmem
          rcases List.mem_append.mp hmem with hm | hm
          · exact hcur hm
          · simp at hm; exact hc hm.symm

theorem pySplitlines_noNL (s : Str) : ∀ p ∈ pySplitlines s, '\n' ∉ p :=
  pySplitlinesF_noNL (s.length + 1) [] s (by simp)

theorem formatRangeUnified_noNL (a b : Nat) : '\n' ∉ formatRangeUnified a b := by
  unfold formatRangeUnified
  split
  · exact newline_not_mem_natDigits _
  · intro hmem
    rcases List.mem_append.mp hmem with hm | hm
    · exact newline_not_mem_natDigits _ hm
    · rcases List.mem_cons.mp hm with hm | hm
      · simp at hm
      · exact newline_not_mem_natDigits _ hm

theorem sliceOf_subset {α : Type} (l : List α) (lo hi : Nat) :
    ∀ p ∈ sliceOf l lo hi, p ∈ l := by
  intro p hp
  exact List.drop_subset lo l (List.take_subset _ _ hp)

theorem opcodeLines_noNL (a b : List Str) (op : Opcode)
    (ha : ∀ p ∈ a, '\n' ∉ p) (hb : ∀ p ∈ b, '\n' ∉ p) :
    ∀ line ∈ opcodeLines a b op, '\n' ∉ line := by
  intro line hline
  unfold opcodeLines at hline
  have hmapA : ∀ (ch : Char), ch ≠ '\n' →
      ∀ x ∈ (sliceOf a op.i1 op.i2).map (fun l => ch :: l), '\n' ∉ x := by
    intro ch hch x hx
    rcases List.mem_map.mp hx with ⟨y, hy, hxy⟩
    subst hxy
    intro hm
    rcases List.mem_cons.mp hm with hm | hm
    · exact hch hm.symm
    · exact ha y (sliceOf_subset _ _ _ y hy) hm
  have hmapB : ∀ (ch : Char), ch ≠ '\n' →
      ∀ x ∈ (sliceOf b op.j1 op.j2).map (fun l => ch :: l), '\n' ∉ x := by
    intro ch hch x hx
    rcases List.mem_map.mp hx with ⟨y, hy, hxy⟩
    subst hxy
    intro hm
    rcases List.mem_cons.mp hm with hm | hm
    · exact hch hm.symm
    · exact hb y (sliceOf_subset _ _ _ y hy) hm
  split at hline
  · exact hmapA ' ' (by decide) line hline
  · rcases List.mem_append.mp hline with hl | hl
    · split at hl
      · exact hmapA '-' (by decide) line hl
      · simp at hl
    · split at hl
      · exact hmapB '+' (by decide) line hl
      · simp at hl

theorem hunkLines_noNL (a b : List Str) (g : List Opcode)
    (ha : ∀ p ∈ a, '\n' ∉ p) (hb : ∀ p ∈ b, '\n' ∉ p) :
    ∀ line ∈ hunkLines a b g, '\n' ∉ line := by
  intro line hline
  unfold hunkLines at hline
  rcases List.mem_cons.mp hline with hl | hl
  · subst hl
    split
    · intro hmem
      simp only [List.append_assoc, List.mem_append] at hmem
      rcases hmem with hm | hm
      · revert hm; decide
      rcases hm with hm | hm
      · exact formatRangeUnified_noNL _ _ hm
      rcases hm with hm | hm
      · revert hm; decide
      rcases hm with hm | hm
      · exact formatRangeUnified_noNL _ _ hm
      · revert hm; decide
    · decide
  · rcases List.mem_flatMap.mp hl with ⟨op, hop, hmem⟩
    exact opcodeLines_noNL a b op ha hb line hmem

theorem unified_diff_noNL (n : Nat) (a b : List Str)
    (ha : ∀ p ∈ a, '\n' ∉ p) (hb : ∀ p ∈ b, '\n' ∉ p) :
    ∀ line ∈ unified_diff n a b, '\n' ∉ line := by
  intro line hline
  unfold unified_diff at hline
  split at hline
  · simp at hline
  · rcases List.mem_cons.mp hline with hl | hl
    · subst hl; decide
    rcases List.mem_cons.mp hl with hl | hl
    · subst hl; decide
    · rcases List.mem_flatMap.mp hl with ⟨g, hg, hmem⟩
      exact hunkLines_noNL a b g ha hb line hmem

/-- The diff stored by add_version spans at most 50 lines. -/
theorem calculate_diff_lines_le (old_code new_code : Str) :
    (pySplitNL (calculate_diff old_code new_code)).length ≤ 50 := by
  unfold calculate_diff
  have h1 : ∀ p ∈ (unified_diff 3 (pySplitlines old_code) (pySplitlines new_code)).take 50,
      '\n' ∉ p := by
    intro p hp
    exact unified_diff_noNL 3 _ _ (pySplitlines_noNL old_code) (pySplitlines_noNL new_code)
      p (List.take_subset _ _ hp)
  rw [pySplitNL_joinNL_length _ h1]
  have h2 := List.length_take_le 50
    (unified_diff 3 (pySplitlines old_code) (pySplitlines new_code))
  omega

/-! ### Claim C2: add_version. -/

/-- C2: every add_version call appends exactly one attempt; its
diffFromPrevious is empty for a first attempt and otherwise is the unified
diff against the immediately preceding attempt's content, truncated to at
most 50 lines; and immediately after the call the current version is the
appended attempt, whose id is the returned value. -/
theorem claim_C2 (md5hex : Str → Str) (now : Nat) (st : EvolutionState) (code : Str)
    (iteration : Nat) (qs : ℚ) (cs : Bool) (rf : Str) (ia : List Str)
    (ce : List CompilationError) (fe : List Str) :
    ∃ v : CodeVersion,
      (add_version md5hex now st code iteration qs cs rf ia ce fe).1.versions
          = st.versions ++ [v]
      ∧ (add_version md5hex now st code iteration qs cs rf ia ce fe).2 = v.version_id
      ∧ get_current_version (add_version md5hex now st code iteration qs cs rf ia ce fe).1
          = some v
      ∧ (st.versions = [] → v.changes_from_previous = [])
      ∧ (∀ prev, st.versions.getLast? = some prev →
          v.changes_from_previous = calculate_diff prev.code code
          ∧ (pySplitNL v.changes_from_previous).length ≤ 50) := by
  refine ⟨⟨mkVersionId md5hex iteration code, code, now, iteration, qs, cs, rf,
    (match st.versions.getLast? with
     | none => []
     | some prev => calculate_diff prev.code code), ia, ce, fe⟩, rfl, rfl, ?_, ?_, ?_⟩
  · unfold get_current_version add_version
    rw [if_neg (by simp)]
    simp only [List.length_append, List.length_singleton]
    rw [show st.versions.length + 1 - 1 = st.versions.length by omega]
    exact List.get?_concat_length _ _
  · intro hnil
    simp [hnil]
  · intro prev hprev
    rw [hprev]
    exact ⟨rfl, calculate_diff_lines_le prev.code code⟩

/-! ### Claim C3: sequence numbers and version ids. -/

/-- C3 counterexample: add_version stores whatever iteration the caller
passes, so calling with iteration 5 and then 3 leaves the stored sequence
numbers not strictly increasing. -/
theorem claim_C3_counterexample :
    strictIncr
      (((runAdds (fun _ => "00000000".toList) (emptySession [])
        [⟨0, "x".toList, 5, 0, false, [], [], [], []⟩,
         ⟨0, "y".toList, 3, 0, false, [], [], [], []⟩]).versions).map
        (fun v => v.iteration)) = false := by
  rfl

theorem runAdds_iterations (md5hex : Str → Str) :
    ∀ (args : List AddArgs) (st : EvolutionState),
      (runAdds md5hex st args).versions.map (fun v => v.iteration)
        = st.versions.map (fun v => v.iteration) ++ args.map (fun a => a.iteration) := by
  intro args
  induction args with
  | nil => intro st; rw [runAdds]; simp
  | cons a rest ih =>
    intro st
    rw [runAdds, ih]
    simp [add_version]

theorem runAdds_id_pure (md5hex : Str → Str) :
    ∀ (args : List AddArgs) (st : EvolutionState),
      (∀ v ∈ st.versions, v.version_id = mkVersionId md5hex v.iteration v.code) →
      ∀ v ∈ (runAdds md5hex st args).versions,
        v.version_id = mkVersionId md5hex v.iteration v.code := by
  intro args
  induction args with
  | nil => intro st h; exact h
  | cons a rest ih =>
    intro st h v hv
    refine ih _ ?_ v hv
    intro w hw
    simp only [add_version, List.mem_append] at hw
    rcases hw with hw | hw
    · exact h w hw
    · simp at hw
      subst hw
      rfl

theorem append_underscore_inj {d1 d2 s1 s2 : Str}
    (h1 : '_' ∉ d1) (h2 : '_' ∉ d2)
    (h : d1 ++ '_' :: s1 = d2 ++ '_' :: s2) : d1 = d2 := by
  induction d1 generalizing d2 with
  | nil =>
    match d2 with
    | [] => rfl
    | c :: r =>
      simp only [List.nil_append, List.cons_append, List.cons.injEq] at h
      exact absurd (by simp [← h.1]) h2
  | cons c1 r1 ih =>
    match d2 with
    | [] =>
      simp only [List.cons_append, List.nil_append, List.cons.injEq] at h
      exact absurd (by simp [h.1]) h1
    | c2 :: r2 =>
      simp only [List.cons_append, List.cons.injEq] at h
      rw [h.1, ih (fun hm => h1 (by simp [hm])) (fun hm => h2 (by simp [hm])) h.2]

theorem mkVersionId_inj_iteration {md5hex : Str → Str} {i1 i2 : Nat} {c1 c2 : Str}
    (hne : i1 ≠ i2) :
    mkVersionId md5hex i1 c1 ≠ mkVersionId md5hex i2 c2 := by
  intro h
  unfold mkVersionId at h
  injection h with hv ht
  have hd := append_underscore_inj (underscore_not_mem_natDigits i1)
    (underscore_not_mem_natDigits i2) ht
  exact hne (natDigits_inj hd)

theorem strictIncr_pairwise : ∀ (l : List Nat), strictIncr l = true → l.Pairwise (· < ·) := by
  intro l
  induction l with
  | nil => intro; exact List.Pairwise.nil
  | cons a r ih =>
    intro h
    match r, h with
    | [], _ => simp
    | b :: r2, h =>
      rw [strictIncr] at h
      simp only [Bool.and_eq_true, decide_eq_true_eq] at h
      have hrest := ih h.2
      refine List.Pairwise.cons ?_ hrest
      intro x hx
      rcases List.mem_cons.mp hx with hx | hx
      · omega
      · have := List.rel_of_pairwise_cons hrest hx
        omega

/-- C3 (amended): ids are a pure function of (content, iteration); when the
caller supplies strictly increasing iteration values on a fresh session the
stored sequence is strictly increasing, and — provided the hex hash output
never contains an underscore — all stored ids are distinct. The claim as
frozen fails because add_version never enforces monotonicity of the
caller-supplied iteration (see the counterexample). -/
theorem claim_C3 :
    (∀ (md5hex : Str → Str) (st0 : EvolutionState) (args : List AddArgs),
      st0.versions = [] →
      ∀ v ∈ (runAdds md5hex st0 args).versions,
        v.version_id = mkVersionId md5hex v.iteration v.code)
    ∧ (∀ (md5hex : Str → Str) (st0 : EvolutionState) (args : List AddArgs),
      st0.versions = [] →
      strictIncr (args.map (fun a => a.iteration)) = true →
        strictIncr ((runAdds md5hex st0 args).versions.map (fun v => v.iteration)) = true)
    ∧ (∀ (md5hex : Str → Str) (i1 i2 : Nat) (c1 c2 : Str),
      i1 ≠ i2 →
        mkVersionId md5hex i1 c1 ≠ mkVersionId md5hex i2 c2)
    ∧ (∀ (md5hex : Str → Str) (st0 : EvolutionState) (args : List AddArgs),
      st0.versions = [] →
      strictIncr (args.map (fun a => a.iteration)) = true →
        ((runAdds md5hex st0 args).versions.map (fun v => v.version_id)).Nodup) := by
  refine ⟨?_, ?_, ?_, ?_⟩
  · intro md5hex st0 args h0
    exact runAdds_id_pure md5hex args st0 (by rw [h0]; simp)
  · intro md5hex st0 args h0 hinc
    rw [runAdds_iterations, h0]
    simpa using hinc
  · intro md5hex i1 i2 c1 c2 hne
    exact mkVersionId_inj_iteration hne
  · intro md5hex st0 args h0 hinc
    have hpure := runAdds_id_pure md5hex args st0 (by rw [h0]; simp)
    have hiter : ((runAdds md5hex st0 args).versions.map (fun v => v.iteration)).Pairwise
        (· < ·) := by
      apply strictIncr_pairwise
      rw [runAdds_iterations, h0]
      simpa using hinc
    rw [List.pairwise_map] at hiter
    have hids : ((runAdds md5hex st0 args).versions).Pairwise
        (fun v w => v.version_id ≠ w.version_id) := by
      refine List.Pairwise.imp_of_mem ?_ hiter
      intro v w hv hw hlt
      rw [hpure v hv, hpure w hw]
      exact mkVersionId_inj_iteration (by omega)
    exact List.pairwise_map.mpr hids

/-! ### Claim C6: recurring-error statistics. -/

theorem insertCountDesc_eq (x : Str × Nat) (l : List (Str × Nat)) :
    insertCountDesc x l
      = l.takeWhile (fun y => decide (x.2 < y.2)) ++ x :: l.dropWhile (fun y => decide (x.2 < y.2)) := by
  induction l with
  | nil => rfl
  | cons y r ih =>
    rw [insertCountDesc]
    by_cases hc : x.2 < y.2
    · rw [if_pos hc, List.takeWhile_cons_of_pos (p := fun (z : Str × Nat) => decide (x.2 < z.2))
        (by simpa using hc),
        List.dropWhile_cons_of_pos (p := fun (z : Str × Nat) => decide (x.2 < z.2)) (by simpa using hc), ih]
      simp
    · rw [if_neg hc, List.takeWhile_cons_of_neg (p := fun (z : Str × Nat) => decide (x.2 < z.2))
        (by simpa using hc),
        List.dropWhile_cons_of_neg (p := fun (z : Str × Nat) => decide (x.2 < z.2)) (by simpa using hc)]
      simp

theorem mem_insertCountDesc {z x : Str × Nat} {l : List (Str × Nat)} :
    z ∈ insertCountDesc x l ↔ z = x ∨ z ∈ l := by
  rw [insertCountDesc_eq]
  constructor
  · intro h
    rcases List.mem_append.mp h with h | h
    · exact Or.inr ((List.takeWhile_sublist _).subset h)
    · rcases List.mem_cons.mp h with h | h
      · exact Or.inl h
      · exact Or.inr ((List.dropWhile_sublist _).subset h)
  · intro h
    rcases h with h | h
    · exact List.mem_append.mpr (Or.inr (by simp [h]))
    · rw [← List.takeWhile_append_dropWhile (p := fun y => decide (x.2 < y.2)) (l := l)] at h
      rcases List.mem_append.mp h with h | h
      · exact List.mem_append.mpr (Or.inl h)
      · exact List.mem_append.mpr (Or.inr (by simp [h]))

theorem sum_insertCountDesc (x : Str × Nat) (l : List (Str × Nat)) :
    ((insertCountDesc x l).map (fun e => e.2)).sum = x.2 + (l.map (fun e => e.2)).sum := by
  rw [insertCountDesc_eq]
  rw [List.map_append, List.sum_append, List.map_cons, List.sum_cons]
  conv_rhs => rw [← List.takeWhile_append_dropWhile (p := fun y => decide (x.2 < y.2)) (l := l)]
  rw [List.map_append, List.sum_append]
  omega

theorem sum_sortCountDesc (l : List (Str × Nat)) :
    ((sortCountDesc l).map (fun e => e.2)).sum = (l.map (fun e => e.2)).sum := by
  induction l with
  | nil => rfl
  | cons x r ih =>
    rw [sortCountDesc, sum_insertCountDesc, ih]
    simp

theorem pairwise_insertCountDesc {x : Str × Nat} {l : List (Str × Nat)}
    (h : l.Pairwise (fun a b => b.2 ≤ a.2)) :
    (insertCountDesc x l).Pairwise (fun a b => b.2 ≤ a.2) := by
  induction l with
  | nil => simp [insertCountDesc]
  | cons y r ih =>
    rcases List.pairwise_cons.mp h with ⟨hy, hr⟩
    rw [insertCountDesc]
    by_cases hc : x.2 < y.2
    · rw [if_pos hc]
      refine List.pairwise_cons.mpr ⟨?_, ih hr⟩
      intro z hz
      rcases mem_insertCountDesc.mp hz with hz | hz
      · subst hz; omega
      · exact hy z hz
    · rw [if_neg hc]
      refine List.pairwise_cons.mpr ⟨?_, h⟩
      intro z hz
      rcases List.mem_cons.mp hz with hz | hz
      · subst hz; omega
      · have := hy z hz; omega

theorem pairwise_sortCountDesc (l : List (Str × Nat)) :
    (sortCountDesc l).Pairwise (fun a b => b.2 ≤ a.2) := by
  induction l with
  | nil => simp [sortCountDesc]
  | cons x r ih => exact pairwise_insertCountDesc ih

theorem filter_insertCountDesc (c : Nat) (x : Str × Nat) (l : List (Str × Nat)) :
    (insertCountDesc x l).filter (fun e => e.2 == c)
      = (x :: l).filter (fun e => e.2 == c) := by
  have hlsplit : l.filter (fun e => e.2 == c)
      = (l.takeWhile (fun y => decide (x.2 < y.2))).filter (fun e => e.2 == c)
        ++ (l.dropWhile (fun y => decide (x.2 < y.2))).filter (fun e => e.2 == c) := by
    conv_lhs =>
      rw [← List.takeWhile_append_dropWhile (p := fun y => decide (x.2 < y.2)) (l := l)]
    rw [List.filter_append]
  rw [insertCountDesc_eq, List.filter_append, List.filter_cons, List.filter_cons, hlsplit]
  by_cases hx : (x.2 == c) = true
  · have htw : (l.takeWhile (fun y => decide (x.2 < y.2))).filter (fun e => e.2 == c) = [] := by
      rw [List.filter_eq_nil_iff]
      intro z hz
      have h1 := List.mem_takeWhile_imp hz
      simp only [decide_eq_true_eq] at h1
      simp only [beq_iff_eq] at hx ⊢
      omega
    rw [htw, if_pos hx, if_pos hx]
    simp
  · rw [if_neg hx, if_neg hx]

theorem filter_sortCountDesc (c : Nat) (l : List (Str × Nat)) :
    (sortCountDesc l).filter (fun e => e.2 == c) = l.filter (fun e => e.2 == c) := by
  induction l with
  | nil => rfl
  | cons x r ih =>
    rw [sortCountDesc, filter_insertCountDesc, List.filter_cons, List.filter_cons, ih]

theorem sum_bumpCount (l : List (Str × Nat)) (k : Str) :
    ((bumpCount l k).map (fun e => e.2)).sum = (l.map (fun e => e.2)).sum + 1 := by
  induction l with
  | nil => rfl
  | cons y r ih =>
    match y with
    | (k2, cnt) =>
      rw [bumpCount]
      by_cases hk : k2 = k
      · rw [if_pos hk]
        simp only [List.map_cons, List.sum_cons]
        omega
      · rw [if_neg hk]
        simp only [List.map_cons, List.sum_cons]
        rw [ih]
        omega

theorem keys_bumpCount (l : List (Str × Nat)) (k : Str) :
    (bumpCount l k).map (fun e => e.1)
      = if k ∈ l.map (fun e => e.1) then l.map (fun e => e.1)
        else l.map (fun e => e.1) ++ [k] := by
  induction l with
  | nil => simp [bumpCount]
  | cons y r ih =>
    match y with
    | (k2, cnt) =>
      rw [bumpCount]
      by_cases hk : k2 = k
      · rw [if_pos hk]
        subst hk
        simp
      · rw [if_neg hk]
        by_cases hmem : k ∈ r.map (fun e => e.1)
        · rw [List.map_cons, ih, if_pos hmem, List.map_cons]
          rw [if_pos (by simp [hmem])]
        · rw [List.map_cons, ih, if_neg hmem, List.map_cons]
          rw [if_neg ?hc]
          · simp
          case hc =>
            simp only [List.mem_cons]
            rintro (h | h)
            · exact hk h.symm
            · exact hmem h

theorem sum_groupFold (f : Str → Str) :
    ∀ (msgs : List Str) (acc : List (Str × Nat)),
      ((msgs.foldl (fun a m => bumpCount a (f m)) acc).map (fun e => e.2)).sum
        = (acc.map (fun e => e.2)).sum + msgs.length := by
  intro msgs
  induction msgs with
  | nil => intro acc; simp
  | cons m rest ih =>
    intro acc
    rw [List.foldl_cons, ih, sum_bumpCount]
    simp only [List.length_cons]
    omega

theorem keys_groupFold (f : Str → Str) :
    ∀ (msgs : List Str) (acc : List (Str × Nat)),
      (msgs.foldl (fun a m => bumpCount a (f m)) acc).map (fun e => e.1)
        = (msgs.map f).foldl (fun ks x => if x ∈ ks then ks else ks ++ [x])
            (acc.map (fun e => e.1)) := by
  intro msgs
  induction msgs with
  | nil => intro acc; simp
  | cons m rest ih =>
    intro acc
    rw [List.foldl_cons, ih, List.map_cons, List.foldl_cons, keys_bumpCount]

theorem allErrorMessages_length (st : EvolutionState) :
    (allErrorMessages st).length
      = (st.versions.map (fun v => v.compilation_errors.length)).sum := by
  unfold allErrorMessages
  induction st.versions with
  | nil => rfl
  | cons v r ih =>
    rw [List.flatMap_cons, List.length_append, List.map_cons, List.sum_cons, ih]
    simp

/-- C6: the recurring-error counts sum to the total number of error
records across all attempts; entries are grouped by normalized signature;
the list is sorted descending by count (so the first entry's count bounds
every other); ties keep the grouped (first-seen) order, whose key order is
first-seen deduplication of the normalized messages. -/
theorem claim_C6 :
    ∀ st : EvolutionState,
      ((get_recurring_errors st).map (fun e => e.2)).sum
          = (st.versions.map (fun v => v.compilation_errors.length)).sum
      ∧ (get_recurring_errors st).Pairwise (fun a b => b.2 ≤ a.2)
      ∧ (∀ h, (get_recurring_errors st).head? = some h →
          ∀ e ∈ get_recurring_errors st, e.2 ≤ h.2)
      ∧ (∀ c : Nat, (get_recurring_errors st).filter (fun e => e.2 == c)
          = (groupedErrors st).filter (fun e => e.2 == c))
      ∧ (groupedErrors st).map (fun e => e.1)
          = dedupFS ((allErrorMessages st).map normalize_error_message) := by
  intro st
  refine ⟨?_, pairwise_sortCountDesc _, ?_, fun c => filter_sortCountDesc c _, ?_⟩
  · rw [get_recurring_errors, sum_sortCountDesc, groupedErrors,
      sum_groupFold normalize_error_message (allErrorMessages st) [],
      allErrorMessages_length]
    simp
  · intro h hh e he
    match hrec : get_recurring_errors st with
    | [] => rw [hrec] at hh; simp at hh
    | x :: rest =>
      rw [hrec] at hh he
      simp only [List.head?_cons, Option.some.injEq] at hh
      subst hh
      have hp := pairwise_sortCountDesc (groupedErrors st)
      rw [show sortCountDesc (groupedErrors st) = get_recurring_errors st from rfl,
        hrec] at hp
      rcases List.mem_cons.mp he with he | he
      · subst he; exact le_refl _
      · exact List.rel_of_pairwise_cons hp he
  · rw [groupedErrors, keys_groupFold normalize_error_message (allErrorMessages st) [],
      dedupFS]
    rfl

/-! ### Claim C9: the error learning context. -/

theorem dedup_foldl_length_mono :
    ∀ (l : List Str) (acc : List Str),
      acc.length ≤ (l.foldl (fun a x => if x ∈ a then a else a ++ [x]) acc).length := by
  intro l
  induction l with
  | nil => intro acc; simp
  | cons x r ih =>
    intro acc
    rw [List.foldl_cons]
    by_cases hx : x ∈ acc
    · rw [if_pos hx]; exact ih acc
    · rw [if_neg hx]
      have := ih (acc ++ [x])
      simp at this
      omega

theorem dedupFS_eq_nil_iff (l : List Str) : dedupFS l = [] ↔ l = [] := by
  constructor
  · intro h
    match l with
    | [] => rfl
    | x :: r =>
      exfalso
      unfold dedupFS at h
      rw [List.foldl_cons, if_neg (by simp)] at h
      have := dedup_foldl_length_mono r ([] ++ [x])
      rw [h] at this
      simp at this
  · intro h; subst h; rfl

theorem fixedCounts_keys (st : EvolutionState) :
    (fixedCounts st).map (fun e => e.1) = dedupFS (allFixedDescriptors st) := by
  unfold fixedCounts dedupFS
  simpa using keys_groupFold (fun m => m) (allFixedDescriptors st) []

theorem fixedCounts_eq_nil_iff (st : EvolutionState) :
    fixedCounts st = [] ↔ allFixedDescriptors st = [] := by
  constructor
  · intro h
    rw [← dedupFS_eq_nil_iff, ← fixedCounts_keys, h]
    rfl
  · intro h
    unfold fixedCounts
    rw [h]
    rfl

/-- C9 counterexample: with fixed-error descriptors a, b, c in the first
attempt and d, d in the second, the section lists a, b, c although the
unlisted d has the strictly largest count — the listed entries are the
first-seen three, not the three most frequent. -/
theorem claim_C9_counterexample :
    ¬ (∀ pc ∈ fixedCounts
        ⟨[], [⟨[], [], 0, 0, 0, false, [], [], [], [], ["a".toList, "b".toList, "c".toList]⟩,
              ⟨[], [], 0, 1, 0, false, [], [], [], [], ["d".toList, "d".toList]⟩], 0⟩,
        pc.1 ∈ listedFixed
          ⟨[], [⟨[], [], 0, 0, 0, false, [], [], [], [], ["a".toList, "b".toList, "c".toList]⟩,
                ⟨[], [], 0, 1, 0, false, [], [], [], [], ["d".toList, "d".toList]⟩], 0⟩ →
        ∀ qc ∈ fixedCounts
          ⟨[], [⟨[], [], 0, 0, 0, false, [], [], [], [], ["a".toList, "b".toList, "c".toList]⟩,
                ⟨[], [], 0, 1, 0, false, [], [], [], [], ["d".toList, "d".toList]⟩], 0⟩,
        qc.1 ∉ listedFixed
          ⟨[], [⟨[], [], 0, 0, 0, false, [], [], [], [], ["a".toList, "b".toList, "c".toList]⟩,
                ⟨[], [], 0, 1, 0, false, [], [], [], [], ["d".toList, "d".toList]⟩], 0⟩ →
        qc.2 ≤ pc.2) := by
  decide

/-- C9 (amended): the fixed-errors section lists the first three distinct
descriptors in first-seen order (not the three most frequent — see the
counterexample); every section of the context is omitted exactly when its
source list is empty, and the context is the newline-join of the four
sections (empty for an empty session). -/
theorem claim_C9 :
    ∀ st : EvolutionState,
      listedFixed st = (dedupFS (allFixedDescriptors st)).take 3
      ∧ (sectionRecurring st = [] ↔ get_recurring_errors st = [])
      ∧ (sectionFixed st = [] ↔ allFixedDescriptors st = [])
      ∧ (sectionFailed st = [] ↔ lastFailedVersions st = [])
      ∧ (sectionSuccess st = [] ↔ successfulVersions st = [])
      ∧ (st.versions ≠ [] → get_error_learning_context st
          = joinNL (sectionRecurring st ++ sectionFixed st ++ sectionFailed st
              ++ sectionSuccess st))
      ∧ (st.versions = [] → get_error_learning_context st = []) := by
  intro st
  refine ⟨?_, ?_, ?_, ?_, ?_, ?_, ?_⟩
  · rw [listedFixed, ← fixedCounts_keys, List.map_take]
  · unfold sectionRecurring
    by_cases h : get_recurring_errors st = []
    · simp [h]
    · simp [h]
  · rw [← fixedCounts_eq_nil_iff]
    unfold sectionFixed
    by_cases h : fixedCounts st = []
    · simp [h]
    · simp [h]
  · unfold sectionFailed
    by_cases h : lastFailedVersions st = []
    · simp [h]
    · simp [h]
  · unfold sectionSuccess
    by_cases h : successfulVersions st = []
    · simp [h]
    · simp [h]
  · intro h
    unfold get_error_learning_context
    rw [if_neg h]
  · intro h
    unfold get_error_learning_context
    rw [if_pos h]

/-! ### Claim C7: learning from success. -/

theorem create_pattern_initial_fields {h : Str → Int} {now : Nat} {ch : LineChange}
    {errs : List Str} {q : SuccessPattern} (hq : create_pattern h now ch errs = some q) :
    q.success_rate = 1 ∧ q.usage_count = 1 ∧ q.confidence = 8/10 := by
  unfold create_pattern at hq
  split at hq
  · exact absurd hq (by simp)
  · dsimp only at hq
    split at hq
    · exact absurd hq (by simp)
    · split at hq
      · exact absurd hq (by simp)
      · simp only [Option.some.injEq] at hq
        subst hq
        exact ⟨rfl, rfl, rfl⟩

theorem update_or_add_new {now : Nat} {pats : List SuccessPattern} {newp : SuccessPattern}
    (hne : ∀ p ∈ pats, p.pattern_id ≠ newp.pattern_id) :
    update_or_add_pattern now pats newp = pats ++ [newp] := by
  unfold update_or_add_pattern
  rw [if_neg ?hc]
  case hc =>
    intro hany
    rcases List.any_eq_true.mp hany with ⟨p, hp, hpe⟩
    exact hne p hp (by simpa using hpe)

theorem update_or_add_existing {now : Nat} {pats : List SuccessPattern}
    {newp q : SuccessPattern} (hq : q ∈ pats) (hid : q.pattern_id = newp.pattern_id) :
    { q with
      usage_count := q.usage_count + 1
      last_used := now
      success_rate := (1 - 1/10) * q.success_rate + (1/10) * 1
      confidence := min (95/100) (q.confidence + 5/100) }
      ∈ update_or_add_pattern now pats newp := by
  unfold update_or_add_pattern
  rw [if_pos (List.any_eq_true.mpr ⟨q, hq, by simpa using hid⟩)]
  have heq : (fun p =>
      if p.pattern_id = newp.pattern_id then
        { p with
          usage_count := p.usage_count + 1
          last_used := now
          success_rate := (1 - 1/10) * p.success_rate + (1/10) * 1
          confidence := min (95/100) (p.confidence + 5/100) }
      else p) q
      = { q with
          usage_count := q.usage_count + 1
          last_used := now
          success_rate := (1 - 1/10) * q.success_rate + (1/10) * 1
          confidence := min (95/100) (q.confidence + 5/100) } := by
    dsimp only
    rw [if_pos hid]
  rw [← heq]
  exact List.mem_map_of_mem _ hq

/-- C7 counterexample: two identical successful learn calls leave
usageCount 2, but the success rate after the second call is exactly 1 — the
same value as after the first call, not strictly closer to 1. -/
theorem claim_C7_counterexample :
    (learn_from_success (fun _ => 0) 0 [] ("a = 1\nb".toList) ("a = 1;\nb".toList) true
        ["';' - semicolon expected (1,5)".toList]).map (fun p => p.success_rate) = [1]
    ∧ (learn_from_success (fun _ => 0) 0
        (learn_from_success (fun _ => 0) 0 [] ("a = 1\nb".toList) ("a = 1;\nb".toList) true
          ["';' - semicolon expected (1,5)".toList])
        ("a = 1\nb".toList) ("a = 1;\nb".toList) true
        ["';' - semicolon expected (1,5)".toList]).map
          (fun p => (p.usage_count, p.success_rate)) = [(2, 1)]
    ∧ ¬ (|1 - (1 : ℚ)| < |1 - (1 : ℚ)|) := by
  have h1 : learn_from_success (fun _ => 0) 0 [] ("a = 1\nb".toList) ("a = 1;\nb".toList) true
      ["';' - semicolon expected (1,5)".toList]
      = [⟨"0_0".toList, "missing_semicolon".toList, "a = 1".toList, "a = 1;".toList,
          "syntax_semicolon".toList, 1, 1, 0, 8/10⟩] := by rfl
  have h2 : learn_from_success (fun _ => 0) 0
      [⟨"0_0".toList, "missing_semicolon".toList, "a = 1".toList, "a = 1;".toList,
        "syntax_semicolon".toList, 1, 1, 0, 8/10⟩]
      ("a = 1\nb".toList) ("a = 1;\nb".toList) true
      ["';' - semicolon expected (1,5)".toList]
      = [⟨"0_0".toList, "missing_semicolon".toList, "a = 1".toList, "a = 1;".toList,
          "syntax_semicolon".toList, (1 - 1/10) * 1 + (1/10) * 1, 1 + 1, 0,
          min (95/100) (8/10 + 5/100)⟩] := by rfl
  refine ⟨?_, ?_, ?_⟩
  · rw [h1]
    rfl
  · rw [h1, h2]
    simp only [List.map_cons, List.map_nil, List.cons.injEq, Prod.mk.injEq, and_true]
    norm_num
  · simp

/-- C7 (amended): failed builds change nothing; a created pattern starts at
successRate 1, usageCount 1, confidence 0.8; an upsert of a fresh id
appends; a repeated match updates by usageCount+1,
successRate := 0.9*successRate + 0.1 and confidence := min(0.95,
confidence+0.05); in the repeated identical-call scenario usageCount
becomes 2 and successRate stays exactly 1 (so not strictly closer to 1
than after the first call). -/
theorem claim_C7 :
    (∀ (h : Str → Int) (now : Nat) (pats : List SuccessPattern) (o f : Str)
        (errs : List Str), learn_from_success h now pats o f false errs = pats)
    ∧ (∀ (h : Str → Int) (now : Nat) (ch : LineChange) (errs : List Str)
        (q : SuccessPattern), create_pattern h now ch errs = some q →
          q.success_rate = 1 ∧ q.usage_count = 1 ∧ q.confidence = 8/10)
    ∧ (∀ (now : Nat) (pats : List SuccessPattern) (newp : SuccessPattern),
        (∀ p ∈ pats, p.pattern_id ≠ newp.pattern_id) →
          update_or_add_pattern now pats newp = pats ++ [newp])
    ∧ (∀ (now : Nat) (pats : List SuccessPattern) (newp q : SuccessPattern),
        q ∈ pats → q.pattern_id = newp.pattern_id →
          { q with
            usage_count := q.usage_count + 1
            last_used := now
            success_rate := (1 - 1/10) * q.success_rate + (1/10) * 1
            confidence := min (95/100) (q.confidence + 5/100) }
            ∈ update_or_add_pattern now pats newp)
    ∧ (learn_from_success (fun _ => 0) 0
        (learn_from_success (fun _ => 0) 0 [] ("a = 1\nb".toList) ("a = 1;\nb".toList) true
          ["';' - semicolon expected (1,5)".toList])
        ("a = 1\nb".toList) ("a = 1;\nb".toList) true
        ["';' - semicolon expected (1,5)".toList]).map
          (fun p => (p.usage_count, p.success_rate)) = [(2, 1)] := by
  refine ⟨fun h now pats o f errs => rfl, fun h now ch errs q hq =>
    create_pattern_initial_fields hq, fun now pats newp hne => update_or_add_new hne,
    fun now pats newp q hq hid => update_or_add_existing hq hid, ?_⟩
  have h2 : learn_from_success (fun _ => 0) 0
      (learn_from_success (fun _ => 0) 0 [] ("a = 1\nb".toList) ("a = 1;\nb".toList) true
        ["';' - semicolon expected (1,5)".toList])
      ("a = 1\nb".toList) ("a = 1;\nb".toList) true
      ["';' - semicolon expected (1,5)".toList]
      = [⟨"0_0".toList, "missing_semicolon".toList, "a = 1".toList, "a = 1;".toList,
          "syntax_semicolon".toList, (1 - 1/10) * 1 + (1/10) * 1, 1 + 1, 0,
          min (95/100) (8/10 + 5/100)⟩] := by rfl
  rw [h2]
  simp only [List.map_cons, List.map_nil, List.cons.injEq, Prod.mk.injEq, and_true]
  norm_num

/-! ### Claim C8: the minimal-fix pass never raises. -/

theorem extract_line_number_ge {msg : Str} {i : Int}
    (h : extract_line_number msg = some i) : -1 ≤ i := by
  unfold extract_line_number at h
  rcases hf : findLineDigits msg with _ | d
  · rw [hf] at h
    exact Option.noConfusion h
  · rw [hf] at h
    simp only [Option.map_some', Option.some.injEq] at h
    subst h
    have : (0 : Int) ≤ (digitsVal d : Int) := Int.natCast_nonneg _
    omega

theorem pyGetI_isSome {α : Type} {l : List α} {i : Int}
    (hlo : -(l.length : Int) ≤ i) (hhi : i < (l.length : Int)) :
    ∃ x, pyGetI l i = some x := by
  unfold pyGetI
  by_cases h0 : 0 ≤ i
  · rw [if_pos h0]
    have : i.toNat < l.length := by omega
    rcases List.get?_eq_get (l := l) this with h
    exact ⟨_, h⟩
  · rw [if_neg h0, if_pos hlo]
    have : ((l.length : Int) + i).toNat < l.length := by omega
    rcases List.get?_eq_get (l := l) this with h
    exact ⟨_, h⟩

theorem pySetI_isSome {α : Type} {l : List α} {i : Int} (x : α)
    (hlo : -(l.length : Int) ≤ i) (hhi : i < (l.length : Int)) :
    ∃ l2, pySetI l i x = some l2 ∧ l2.length = l.length := by
  unfold pySetI
  by_cases h0 : 0 ≤ i
  · rw [if_pos h0, if_pos (by omega)]
    exact ⟨_, rfl, by simp⟩
  · rw [if_neg h0, if_pos hlo]
    exact ⟨_, rfl, by simp⟩

theorem fix_single_error_shape {lines : List Str} {e : CategorizedError}
    {ch : CodeChange} (h : fix_single_error lines e = .ok (some ch)) :
    -1 ≤ ch.line_number ∧ ch.line_number < (lines.length : Int)
      ∧ ch.change_type = "fix".toList := by
  unfold fix_single_error at h
  rcases hext : extract_line_number e.original_message with _ | ln
  · simp only [hext] at h
    simp at h
  · simp only [hext] at h
    have hge := extract_line_number_ge hext
    by_cases hlt : (lines.length : Int) ≤ ln
    · rw [if_pos hlt] at h; simp at h
    · rw [if_neg hlt] at h
      rcases hget : pyGetI lines ln with _ | line
      · simp only [hget] at h
        simp at h
      · simp only [hget] at h
        have hln : -1 ≤ ln ∧ ln < (lines.length : Int) := ⟨hge, by omega⟩
        split at h
        · unfold fix_missing_semicolon at h
          simp only [Except.ok.injEq, Option.some.injEq] at h
          subst h
          exact ⟨hln.1, hln.2, rfl⟩
        · split at h
          · unfold fix_missing_parenthesis at h
            split at h
            · simp only [Except.ok.injEq, Option.some.injEq] at h
              subst h
              exact ⟨hln.1, hln.2, rfl⟩
            · simp at h
          · split at h
            · unfold fix_deprecated_function at h
              rcases hfind : MARKETINFO_FIXES.find? (fun pr => containsSub line pr.1)
                with _ | pr
              · rw [hfind] at h; simp at h
              · rw [hfind] at h
                simp only [Option.map_some', Except.ok.injEq, Option.some.injEq] at h
                subst h
                exact ⟨hln.1, hln.2, rfl⟩
            · split at h
              · unfold fix_deprecated_variable at h
                rcases hfind : ACCOUNT_FIXES.find? (fun pr => containsSub line pr.1)
                  with _ | pr
                · rw [hfind] at h; simp at h
                · rw [hfind] at h
                  simp only [Option.map_some', Except.ok.injEq, Option.some.injEq] at h
                  subst h
                  exact ⟨hln.1, hln.2, rfl⟩
              · split at h
                · unfold fix_wrong_parameters at h
                  split at h
                  · simp only [Except.ok.injEq, Option.some.injEq] at h
                    subst h
                    exact ⟨hln.1, hln.2, rfl⟩
                  · simp at h
                · simp at h

theorem fix_single_error_ok (lines : List Str) (e : CategorizedError)
    (hl : lines ≠ []) : ∃ r, fix_single_error lines e = .ok r := by
  unfold fix_single_error
  rcases hext : extract_line_number e.original_message with _ | ln
  · simp only [hext]
    exact ⟨none, rfl⟩
  · simp only [hext]
    have hge := extract_line_number_ge hext
    by_cases hlt : (lines.length : Int) ≤ ln
    · rw [if_pos hlt]
      exact ⟨none, rfl⟩
    · rw [if_neg hlt]
      have hlen : 1 ≤ lines.length := by
        cases lines with
        | nil => exact absurd rfl hl
        | cons a r => simp
      rcases pyGetI_isSome (l := lines) (i := ln) (by omega) (by omega) with ⟨line, hget⟩
      simp only [hget]
      split
      · exact ⟨_, rfl⟩
      · split
        · exact ⟨_, rfl⟩
        · split
          · exact ⟨_, rfl⟩
          · split
            · exact ⟨_, rfl⟩
            · split
              · exact ⟨_, rfl⟩
              · exact ⟨none, rfl⟩

theorem pySplitNL_ne_nil (s : Str) : pySplitNL s ≠ [] := by
  induction s with
  | nil => simp [pySplitNL]
  | cons c r ih =>
    rw [pySplitNL]
    by_cases hc : c = '\n'
    · rw [if_pos hc]; simp
    · rw [if_neg hc]
      unfold consHead
      split
      · simp
      · simp

theorem applyFixLoop_ok (m : Nat) :
    ∀ (es : List CategorizedError) (lines : List Str) (chs : List CodeChange),
      lines ≠ [] → ∃ r, applyFixLoop m es lines chs = .ok r := by
  intro es
  induction es with
  | nil => intro lines chs _; exact ⟨(lines, chs), rfl⟩
  | cons e rest ih =>
    intro lines chs hl
    rw [applyFixLoop]
    by_cases hm : m ≤ chs.length
    · rw [if_pos hm]
      exact ⟨(lines, chs), rfl⟩
    · rw [if_neg hm]
      rcases hfix : fix_single_error lines e with u | och
      · rcases fix_single_error_ok lines e hl with ⟨r, hr⟩
        rw [hfix] at hr
        exact absurd hr (by simp)
      · match och, hfix with
        | none, hfix => exact ih lines chs hl
        | some ch, hfix =>
          rcases fix_single_error_shape hfix with ⟨hge, hlt, hty⟩
          dsimp only
          rw [if_pos hty]
          have hlen : 1 ≤ lines.length := by
            cases lines with
            | nil => exact absurd rfl hl
            | cons a r => simp
          rcases pySetI_isSome (l := lines) (i := ch.line_number) ch.new_content
            (by omega) hlt with ⟨lines2, hset, hslen⟩
          simp only [hset]
          refine ih lines2 (chs ++ [ch]) ?_
          intro hnil
          rw [hnil] at hslen
          simp at hslen
          omega

/-- C8 counterexample: an error message locating line 0 extracts index -1;
the code does not skip it (the check only rejects indices at or above the
buffer length) but edits the last buffer line via Python's negative
indexing. -/
theorem claim_C8_counterexample :
    extract_line_number ("';' - semicolon expected (0,4)".toList) = some (-1)
    ∧ ¬ (0 ≤ (-1 : Int))
    ∧ fix_single_error ["x = 1".toList, "y".toList]
        (categorize_single_error ("';' - semicolon expected (0,4)".toList))
        ≠ Except.ok none := by
  refine ⟨by decide, by decide, ?_⟩
  intro h
  have h3 : fix_single_error ["x = 1".toList, "y".toList]
      (categorize_single_error ("';' - semicolon expected (0,4)".toList))
      = Except.ok (some ⟨-1, "y".toList, "y;".toList, "fix".toList, 95/100⟩) := by rfl
  rw [h] at h3
  simp at h3

/-- C8 (amended): an error with no extractable location or with an
extracted index at or beyond the buffer length is skipped; every
fix_single_error call on a nonempty buffer returns without raising
(messages naming line 0 resolve to index -1, Python's last line, so they
are edited, not skipped — see the counterexample); and the whole minimal
fixing pass never raises on any input. -/
theorem claim_C8 :
    (∀ (lines : List Str) (e : CategorizedError), lines ≠ [] →
      ((extract_line_number e.original_message = none →
          fix_single_error lines e = Except.ok none)
        ∧ (∀ i, extract_line_number e.original_message = some i →
            (lines.length : Int) ≤ i → fix_single_error lines e = Except.ok none)
        ∧ ∃ r, fix_single_error lines e = Except.ok r))
    ∧ (∀ (m : Nat) (code : Str) (errs : List CategorizedError),
        ∃ r, apply_minimal_fixes m code errs = Except.ok r) := by
  constructor
  · intro lines e hl
    refine ⟨?_, ?_, fix_single_error_ok lines e hl⟩
    · intro hnone
      unfold fix_single_error
      simp only [hnone]
    · intro i hsome hge
      unfold fix_single_error
      simp only [hsome]
      rw [if_pos hge]
  · intro m code errs
    rcases applyFixLoop_ok m (errs.take 3) (pySplitNL code) [] (pySplitNL_ne_nil code)
      with ⟨r, hr⟩
    refine ⟨(joinNL r.1, r.2), ?_⟩
    unfold apply_minimal_fixes
    rw [hr]
    rfl


/-! ### Claim C10: idempotence of the normalizer. -/

/-! Character-level facts about `lowerC`, `isSpaceC`, `isDigit`. -/

theorem toNat_ofNat_valid {n : Nat} (h : n < 55296) : (Char.ofNat n).toNat = n := by
  have hv : n.isValidChar := Or.inl h
  rw [Char.ofNat, dif_pos hv]
  rfl

theorem lowerC_upper {c : Char} (h : 'A' ≤ c ∧ c ≤ 'Z') : (lowerC c).toNat = c.toNat + 32 := by
  have h65 : 65 ≤ c.toNat := h.1
  have h90 : c.toNat ≤ 90 := h.2
  rw [lowerC, if_pos h]
  exact toNat_ofNat_valid (by omega)

theorem lowerC_notupper {c : Char} (h : ¬('A' ≤ c ∧ c ≤ 'Z')) : lowerC c = c := by
  rw [lowerC, if_neg h]

theorem notupper_of_toNat {c : Char} (h : 90 < c.toNat ∨ c.toNat < 65) :
    ¬('A' ≤ c ∧ c ≤ 'Z') := by
  intro hc
  have h1 : 65 ≤ c.toNat := hc.1
  have h2 : c.toNat ≤ 90 := hc.2
  omega

theorem lowerC_idem (c : Char) : lowerC (lowerC c) = lowerC c := by
  by_cases h : 'A' ≤ c ∧ c ≤ 'Z'
  · have ht := lowerC_upper h
    have h1 : (65:Nat) ≤ c.toNat := h.1
    exact lowerC_notupper (notupper_of_toNat (Or.inl (by omega)))
  · rw [lowerC_notupper h, lowerC_notupper h]

theorem quoteChar_toNat : quoteChar.toNat = 39 := by decide

theorem lowerC_quote : lowerC quoteChar = quoteChar := by decide

theorem lowerC_ne_quote {c : Char} (h : c ≠ quoteChar) : lowerC c ≠ quoteChar := by
  by_cases hu : 'A' ≤ c ∧ c ≤ 'Z'
  · have ht := lowerC_upper hu
    have h1 : (65:Nat) ≤ c.toNat := hu.1
    intro he
    have h39 : (lowerC c).toNat = 39 := by rw [he]; exact quoteChar_toNat
    omega
  · rw [lowerC_notupper hu]; exact h

theorem isSpaceC_le_toNat {c : Char} (h : isSpaceC c = true) : c.toNat ≤ 32 := by
  rw [isSpaceC] at h
  simp only [Bool.or_eq_true, decide_eq_true_eq] at h
  rcases h with ((((h | h) | h) | h) | h) | h <;> subst h <;> decide

theorem isSpaceC_lowerC (c : Char) : isSpaceC (lowerC c) = isSpaceC c := by
  by_cases hu : 'A' ≤ c ∧ c ≤ 'Z'
  · have ht := lowerC_upper hu
    have h1 : (65:Nat) ≤ c.toNat := hu.1
    have e1 : isSpaceC c = false := by
      cases he : isSpaceC c
      · rfl
      · exact absurd (isSpaceC_le_toNat he) (by omega)
    have e2 : isSpaceC (lowerC c) = false := by
      cases he : isSpaceC (lowerC c)
      · rfl
      · exact absurd (isSpaceC_le_toNat he) (by omega)
    rw [e1, e2]
  · rw [lowerC_notupper hu]

theorem isDigit_iff {c : Char} : c.isDigit = true ↔ (48 ≤ c.toNat ∧ c.toNat ≤ 57) := by
  simp only [Char.isDigit, ge_iff_le, Bool.and_eq_true, decide_eq_true_eq]
  exact Iff.rfl

theorem lowerC_isDigit (c : Char) : (lowerC c).isDigit = c.isDigit := by
  by_cases hu : 'A' ≤ c ∧ c ≤ 'Z'
  · have ht := lowerC_upper hu
    have h1 : (65:Nat) ≤ c.toNat := hu.1
    have h2 : c.toNat ≤ 90 := hu.2
    have e1 : c.isDigit = false := by
      cases he : c.isDigit
      · rfl
      · have := isDigit_iff.mp he; omega
    have e2 : (lowerC c).isDigit = false := by
      cases he : (lowerC c).isDigit
      · rfl
      · have := isDigit_iff.mp he; omega
    rw [e1, e2]
  · rw [lowerC_notupper hu]

/-! Digit-free strings are fixed by the first two passes. -/

theorem digitsHead_eq_zero_head {l : Str}
    (h : ∀ c, l.head? = some c → c.isDigit = false) : digitsHead l = 0 := by
  cases l with
  | nil => rfl
  | cons c r => simp [digitsHead, h c rfl]

theorem digitsHead_eq_zero {l : Str} (h : ∀ c ∈ l, c.isDigit = false) : digitsHead l = 0 := by
  cases l with
  | nil => rfl
  | cons c r => simp [digitsHead, h c (List.mem_cons_self c r)]

theorem tryLoc_none_of_zero {l : Str} (h : digitsHead l = 0) : tryLoc l = none := by
  rw [tryLoc, if_pos h]

theorem p1_eq_self {l : Str} (h : ∀ c ∈ l, c.isDigit = false) : p1 l = l := by
  induction l with
  | nil => rfl
  | cons c r ih =>
    have hr : ∀ x ∈ r, x.isDigit = false := fun x hx => h x (List.mem_cons_of_mem c hx)
    by_cases hc : c = '('
    · subst hc
      rw [p1_paren_none (tryLoc_none_of_zero (digitsHead_eq_zero hr)), ih hr]
    · rw [p1_cons_ne r hc, ih hr]

theorem p2_eq_self {l : Str} (h : ∀ c ∈ l, c.isDigit = false) : p2 l = l := by
  induction l with
  | nil => rfl
  | cons c r ih =>
    have hr : ∀ x ∈ r, x.isDigit = false := fun x hx => h x (List.mem_cons_of_mem c hx)
    rw [p2_nomatch, ih hr]
    rintro ⟨h1, h2⟩
    exact h2 (digitsHead_eq_zero (fun x hx => h x (List.drop_subset 5 (c :: r) hx)))

/-! Structure of `splitQuote`. -/

theorem splitQuote_eq_some {l a b : Str} (h : splitQuote l = some (a, b)) :
    l = a ++ quoteChar :: b ∧ quoteChar ∉ a := by
  induction l generalizing a b with
  | nil => simp [splitQuote] at h
  | cons c r ih =>
    rw [splitQuote] at h
    by_cases hc : c = quoteChar
    · subst hc
      rw [if_pos rfl] at h
      simp only [Option.some.injEq, Prod.mk.injEq] at h
      obtain ⟨ha, hb⟩ := h
      subst ha; subst hb
      exact ⟨rfl, List.not_mem_nil _⟩
    · rw [if_neg hc] at h
      rcases hs : splitQuote r with _ | ⟨a', b'⟩
      · rw [hs] at h; simp at h
      · rw [hs] at h
        simp only [Option.elim_some, Option.some.injEq, Prod.mk.injEq] at h
        obtain ⟨ha, hb⟩ := h
        obtain ⟨hd, hm⟩ := ih hs
        subst hb
        constructor
        · rw [← ha, hd]; rfl
        · rw [← ha]
          intro hmem
          rcases List.mem_cons.mp hmem with he | he
          · exact hc he.symm
          · exact hm he

theorem splitQuote_none_iff {l : Str} : splitQuote l = none ↔ quoteChar ∉ l := by
  induction l with
  | nil => simp [splitQuote]
  | cons c r ih =>
    rw [splitQuote]
    by_cases hc : c = quoteChar
    · subst hc
      simp
    · rw [if_neg hc]
      cases hs : splitQuote r with
      | none =>
        simp only [Option.elim_none, List.mem_cons, true_iff]
        have hr : quoteChar ∉ r := ih.mp hs
        intro hmem
        rcases hmem with he | he
        · exact hc he.symm
        · exact hr he
      | some ab =>
        simp only [Option.elim_some, List.mem_cons]
        constructor
        · intro h; exact absurd h (by simp)
        · intro h
          exfalso
          apply h
          right
          have : ¬ (splitQuote r = none) := by rw [hs]; simp
          by_contra hnr
          exact this (ih.mpr hnr)

theorem splitQuote_append_of_notmem {a : Str} (b : Str) (ha : quoteChar ∉ a) :
    splitQuote (a ++ quoteChar :: b) = some (a, b) := by
  induction a with
  | nil => rw [List.nil_append, splitQuote, if_pos rfl]
  | cons c a' ih =>
    have hc : c ≠ quoteChar := fun he => ha (he ▸ List.mem_cons_self c a')
    rw [List.cons_append, splitQuote, if_neg hc,
      ih (fun hm => ha (List.mem_cons_of_mem c hm))]
    rfl

/-! The third pass on quote-free strings and around quote-free affixes. -/

theorem p3_eq_self_of_notmem {l : Str} (h : quoteChar ∉ l) : p3 l = l := by
  induction l with
  | nil => rfl
  | cons c r ih =>
    have hc : c ≠ quoteChar := fun he => h (he ▸ List.mem_cons_self c r)
    rw [p3_cons_ne r hc, ih (fun hm => h (List.mem_cons_of_mem c hm))]

theorem p3_append_left {a : Str} (b : Str) (ha : quoteChar ∉ a) :
    p3 (a ++ b) = a ++ p3 b := by
  induction a with
  | nil => rfl
  | cons c a' ih =>
    have hc : c ≠ quoteChar := fun he => ha (he ▸ List.mem_cons_self c a')
    rw [List.cons_append, p3_cons_ne _ hc, ih (fun hm => ha (List.mem_cons_of_mem c hm))]
    rfl

theorem splitQuote_append_right {b : Str} (hb : quoteChar ∉ b) (a : Str) :
    splitQuote (a ++ b) = (splitQuote a).elim none (fun ab => some (ab.1, ab.2 ++ b)) := by
  induction a with
  | nil =>
    rw [List.nil_append, splitQuote_none_iff.mpr hb]
    rfl
  | cons c a' ih =>
    by_cases hc : c = quoteChar
    · subst hc
      rw [List.cons_append, splitQuote, if_pos rfl, splitQuote, if_pos rfl]
      rfl
    · rw [List.cons_append, splitQuote, if_neg hc, ih, splitQuote, if_neg hc]
      cases splitQuote a' <;> rfl

theorem p3_append_right_fuel {b : Str} (hb : quoteChar ∉ b) :
    ∀ (n : Nat) (a : Str), a.length ≤ n → p3 (a ++ b) = p3 a ++ b := by
  intro n
  induction n with
  | zero =>
    intro a ha
    have : a = [] := List.length_eq_zero.mp (Nat.le_zero.mp ha)
    subst this
    rw [List.nil_append, p3_nil, List.nil_append, p3_eq_self_of_notmem hb]
  | succ n ih =>
    intro a ha
    match a with
    | [] =>
      rw [List.nil_append, p3_nil, List.nil_append, p3_eq_self_of_notmem hb]
    | c :: a' =>
      simp only [List.length_cons] at ha
      by_cases hc : c = quoteChar
      · subst hc
        rw [List.cons_append]
        rcases hs : splitQuote a' with _ | ⟨x, y⟩
        · have hsb : splitQuote (a' ++ b) = none := by
            rw [splitQuote_append_right hb, hs]; rfl
          rw [p3_quote_none hsb, p3_quote_none hs, ih a' (by omega)]
          rfl
        · have hsb : splitQuote (a' ++ b) = some (x, y ++ b) := by
            rw [splitQuote_append_right hb, hs]; rfl
          rw [p3_quote_some hsb, p3_quote_some hs]
          have hy : y.length ≤ n := by
            have := splitQuote_length hs; omega
          rw [ih y hy, List.append_assoc]
      · rw [List.cons_append, p3_cons_ne _ hc, p3_cons_ne _ hc, ih a' (by omega)]
        rfl

theorem p3_append_right {a b : Str} (hb : quoteChar ∉ b) : p3 (a ++ b) = p3 a ++ b :=
  p3_append_right_fuel hb a.length a (le_refl _)

theorem p3_ne_nil {l : Str} (h : l ≠ []) : p3 l ≠ [] := by
  match l with
  | c :: r =>
    by_cases hc : c = quoteChar
    · subst hc
      rcases hs : splitQuote r with _ | ⟨x, y⟩
      · rw [p3_quote_none hs]; simp
      · rw [p3_quote_some hs]; simp [identLit]
    · rw [p3_cons_ne r hc]; simp

theorem getLast?_cons_of_ne_nil {α : Type} {r : List α} (c : α) (h : r ≠ []) :
    (c :: r).getLast? = r.getLast? := by
  cases r with
  | nil => exact absurd rfl h
  | cons d t => rw [List.getLast?_cons_cons]

theorem getLast?_append_ne_nil {α : Type} {b : List α} (a : List α) (h : b ≠ []) :
    (a ++ b).getLast? = b.getLast? := by
  induction a with
  | nil => rfl
  | cons c a' ih =>
    rw [List.cons_append,
      getLast?_cons_of_ne_nil _ (fun he => h (List.append_eq_nil.mp he).2), ih]

theorem p3_getLast?_fuel : ∀ (n : Nat) (l : Str), l.length ≤ n → l ≠ [] →
    (p3 l).getLast? = l.getLast? := by
  intro n
  induction n with
  | zero =>
    intro l hl hne
    exact absurd (List.length_eq_zero.mp (Nat.le_zero.mp hl)) hne
  | succ n ih =>
    intro l hl hne
    match l with
    | c :: r =>
      simp only [List.length_cons] at hl
      by_cases hc : c = quoteChar
      · subst hc
        rcases hs : splitQuote r with _ | ⟨x, y⟩
        · rw [p3_quote_none hs]
          rcases hr : r with _ | ⟨d, r'⟩
          · rw [p3_nil]
          · rw [← hr]
            have hrne : r ≠ [] := by rw [hr]; simp
            rw [getLast?_cons_of_ne_nil _ (p3_ne_nil hrne),
              getLast?_cons_of_ne_nil _ hrne]
            exact ih r (by omega) hrne
        · obtain ⟨hd, hx⟩ := splitQuote_eq_some hs
          rw [p3_quote_some hs]
          rcases hy : y with _ | ⟨d, y'⟩
          · subst hy
            rw [p3_nil, List.append_nil, hd]
            rw [getLast?_cons_of_ne_nil _ (by simp : x ++ [quoteChar] ≠ []),
              getLast?_append_ne_nil x (by simp : ([quoteChar] : Str) ≠ [])]
            decide
          · rw [← hy]
            have hyne : y ≠ [] := by rw [hy]; simp
            have hylen : y.length ≤ n := by
              have := splitQuote_length hs; omega
            rw [getLast?_append_ne_nil identLit (p3_ne_nil hyne), hd,
              getLast?_cons_of_ne_nil _ (by simp : x ++ quoteChar :: y ≠ []),
              getLast?_append_ne_nil x (by simp : quoteChar :: y ≠ []),
              getLast?_cons_of_ne_nil _ hyne]
            exact ih y hylen hyne
      · rw [p3_cons_ne r hc]
        rcases hr : r with _ | ⟨d, r'⟩
        · rw [p3_nil]
        · rw [← hr]
          have hrne : r ≠ [] := by rw [hr]; simp
          rw [getLast?_cons_of_ne_nil _ (p3_ne_nil hrne), getLast?_cons_of_ne_nil _ hrne]
          exact ih r (by omega) hrne

theorem p3_getLast? {l : Str} (h : l ≠ []) : (p3 l).getLast? = l.getLast? :=
  p3_getLast?_fuel l.length l (le_refl _) h

/-! `dropWhile`, `dropTrail` and `pyStrip` infrastructure. -/

theorem dropWhile_append_of_all {p : Char → Bool} {u : Str} (v : Str)
    (hu : ∀ c ∈ u, p c = true) : (u ++ v).dropWhile p = v.dropWhile p := by
  induction u with
  | nil => rfl
  | cons c u' ih =>
    rw [List.cons_append, List.dropWhile_cons_of_pos (hu c (List.mem_cons_self c u'))]
    exact ih (fun x hx => hu x (List.mem_cons_of_mem c hx))

theorem dropWhile_eq_self {p : Char → Bool} {l : Str}
    (h : ∀ c, l.head? = some c → p c = false) : l.dropWhile p = l := by
  cases l with
  | nil => rfl
  | cons c r => rw [List.dropWhile_cons_of_neg (by rw [h c rfl]; simp)]

theorem head?_dropWhile {p : Char → Bool} :
    ∀ (l : Str) (c : Char), (l.dropWhile p).head? = some c → p c = false := by
  intro l
  induction l with
  | nil => simp [List.dropWhile]
  | cons d r ih =>
    intro c hc
    by_cases hd : p d
    · rw [List.dropWhile_cons_of_pos hd] at hc
      exact ih c hc
    · rw [List.dropWhile_cons_of_neg hd] at hc
      simp only [List.head?_cons, Option.some.injEq] at hc
      subst hc
      simpa using hd

theorem dropTrail_append_of_all {p : Char → Bool} {w : Str} (a : Str)
    (hw : ∀ c ∈ w, p c = true) : dropTrail p (a ++ w) = dropTrail p a := by
  rw [dropTrail, dropTrail, List.reverse_append,
    dropWhile_append_of_all _ (fun c hc => hw c (List.mem_reverse.mp hc))]

theorem dropTrail_eq_self {p : Char → Bool} {l : Str}
    (h : ∀ c, l.getLast? = some c → p c = false) : dropTrail p l = l := by
  rw [dropTrail]
  rcases hr : l.reverse with _ | ⟨c, r⟩
  · rw [List.dropWhile_nil, ← hr, List.reverse_reverse]
  · have hlast : l.getLast? = some c := by
      rw [← List.head?_reverse, hr, List.head?_cons]
    rw [List.dropWhile_cons_of_neg (by rw [h c hlast]; simp), ← hr, List.reverse_reverse]

theorem dropTrail_getLast? {p : Char → Bool} (l : Str) (c : Char)
    (h : (dropTrail p l).getLast? = some c) : p c = false := by
  rw [dropTrail, ← List.head?_reverse, List.reverse_reverse] at h
  exact head?_dropWhile _ c h

theorem strip_decomp (p : Char → Bool) (l : Str) :
    l = dropTrail p l ++ (l.reverse.takeWhile p).reverse := by
  rw [dropTrail, ← List.reverse_append, List.takeWhile_append_dropWhile, List.reverse_reverse]

theorem head?_dropTrail {p : Char → Bool} (l : Str) (c : Char)
    (h : (dropTrail p l).head? = some c) : l.head? = some c := by
  have hpre : dropTrail p l <+: l := by
    rw [dropTrail]
    have hsuf : l.reverse.dropWhile p <:+ l.reverse := List.dropWhile_suffix p
    have := List.reverse_prefix.mpr hsuf
    rwa [List.reverse_reverse] at this
  obtain ⟨t, ht⟩ := hpre
  rcases hd : dropTrail p l with _ | ⟨d, r⟩
  · rw [hd] at h; simp at h
  · rw [hd] at h ht
    simp only [List.head?_cons, Option.some.injEq] at h
    subst h
    rw [← ht]
    rfl

theorem pyStrip_head_not_space (l : Str) (c : Char) (h : (pyStrip l).head? = some c) :
    isSpaceC c = false := by
  rw [pyStrip] at h
  exact head?_dropWhile _ c (head?_dropTrail _ c h)

theorem pyStrip_getLast_not_space (l : Str) (c : Char) (h : (pyStrip l).getLast? = some c) :
    isSpaceC c = false :=
  dropTrail_getLast? _ c h

theorem pyStrip_idem (l : Str) : pyStrip (pyStrip l) = pyStrip l := by
  have h1 : (pyStrip l).dropWhile isSpaceC = pyStrip l :=
    dropWhile_eq_self (fun c hc => pyStrip_head_not_space l c hc)
  show dropTrail isSpaceC ((pyStrip l).dropWhile isSpaceC) = pyStrip l
  rw [h1]
  exact dropTrail_eq_self (fun c hc => pyStrip_getLast_not_space l c hc)

/-! `pyStrip` commutes with the third pass. -/

theorem quote_not_space : isSpaceC quoteChar = false := by decide

theorem dropWhile_p3 (l : Str) : (p3 l).dropWhile isSpaceC = p3 (l.dropWhile isSpaceC) := by
  induction l with
  | nil => rfl
  | cons c r ih =>
    by_cases hc : c = quoteChar
    · subst hc
      have hq : ¬ (isSpaceC quoteChar = true) := by rw [quote_not_space]; simp
      rw [List.dropWhile_cons_of_neg hq]
      have hhead : ∀ z, (p3 (quoteChar :: z)).dropWhile isSpaceC = p3 (quoteChar :: z) := by
        intro z
        apply dropWhile_eq_self
        intro d hd
        rcases hs : splitQuote z with _ | ⟨x, y⟩
        · rw [p3_quote_none hs] at hd
          simp only [List.head?_cons, Option.some.injEq] at hd
          subst hd
          exact quote_not_space
        · rw [p3_quote_some hs] at hd
          rw [show identLit ++ p3 y
              = quoteChar :: ("IDENTIFIER'".toList ++ p3 y) from rfl] at hd
          simp only [List.head?_cons, Option.some.injEq] at hd
          subst hd
          exact quote_not_space
      exact hhead r
    · by_cases hsp : isSpaceC c
      · rw [p3_cons_ne r hc, List.dropWhile_cons_of_pos hsp,
          List.dropWhile_cons_of_pos hsp, ih]
      · rw [p3_cons_ne r hc, List.dropWhile_cons_of_neg hsp,
          List.dropWhile_cons_of_neg hsp, p3_cons_ne r hc]

theorem dropTrail_p3 (l : Str) : dropTrail isSpaceC (p3 l) = p3 (dropTrail isSpaceC l) := by
  have hallw : ∀ c ∈ (l.reverse.takeWhile isSpaceC).reverse, isSpaceC c = true := by
    intro c hc
    exact List.mem_takeWhile_imp (List.mem_reverse.mp hc)
  have hwq : quoteChar ∉ (l.reverse.takeWhile isSpaceC).reverse := by
    intro hm
    have h1 := hallw _ hm
    rw [quote_not_space] at h1
    exact Bool.false_ne_true h1
  have h1 : p3 l = p3 (dropTrail isSpaceC l) ++ (l.reverse.takeWhile isSpaceC).reverse := by
    conv_lhs => rw [strip_decomp isSpaceC l]
    exact p3_append_right hwq
  rw [h1, dropTrail_append_of_all _ hallw]
  apply dropTrail_eq_self
  intro c hc
  by_cases hnil : dropTrail isSpaceC l = []
  · rw [hnil, p3_nil] at hc; simp at hc
  · rw [p3_getLast? hnil] at hc
    exact dropTrail_getLast? l c hc

theorem pyStrip_p3 (l : Str) : pyStrip (p3 l) = p3 (pyStrip l) := by
  show dropTrail isSpaceC ((p3 l).dropWhile isSpaceC) = p3 (pyStrip l)
  rw [dropWhile_p3, dropTrail_p3]
  rfl

/-! `pyLower` commutes with `pyStrip`; both are idempotent. -/

theorem pyLower_cons (c : Char) (r : Str) : pyLower (c :: r) = lowerC c :: pyLower r := rfl

theorem pyLower_dropWhile (l : Str) :
    (pyLower l).dropWhile isSpaceC = pyLower (l.dropWhile isSpaceC) := by
  induction l with
  | nil => rfl
  | cons c r ih =>
    rw [pyLower_cons]
    by_cases hsp : isSpaceC c
    · rw [List.dropWhile_cons_of_pos (by rw [isSpaceC_lowerC]; exact hsp),
        List.dropWhile_cons_of_pos hsp]
      exact ih
    · rw [List.dropWhile_cons_of_neg (by rw [isSpaceC_lowerC]; exact hsp),
        List.dropWhile_cons_of_neg hsp, pyLower_cons]

theorem pyLower_reverse (l : Str) : pyLower l.reverse = (pyLower l).reverse := by
  rw [pyLower, pyLower, List.map_reverse]

theorem pyLower_dropTrail (l : Str) :
    pyLower (dropTrail isSpaceC l) = dropTrail isSpaceC (pyLower l) := by
  show pyLower ((l.reverse.dropWhile isSpaceC).reverse)
      = ((pyLower l).reverse.dropWhile isSpaceC).reverse
  rw [← pyLower_reverse l, pyLower_dropWhile l.reverse, ← pyLower_reverse]

theorem pyLower_pyStrip (l : Str) : pyLower (pyStrip l) = pyStrip (pyLower l) := by
  show pyLower (dropTrail isSpaceC (l.dropWhile isSpaceC))
      = dropTrail isSpaceC ((pyLower l).dropWhile isSpaceC)
  rw [pyLower_dropWhile l, pyLower_dropTrail]

theorem pyLower_append (a b : Str) : pyLower (a ++ b) = pyLower a ++ pyLower b := by
  simp [pyLower]

theorem pyLower_idem (l : Str) : pyLower (pyLower l) = pyLower l := by
  simp only [pyLower, List.map_map]
  exact List.map_congr_left (fun c _ => lowerC_idem c)

theorem notmem_quote_pyLower {l : Str} (h : quoteChar ∉ l) : quoteChar ∉ pyLower l := by
  intro hm
  rw [pyLower, List.mem_map] at hm
  obtain ⟨c, hc, he⟩ := hm
  by_cases hcq : c = quoteChar
  · subst hcq; exact h hc
  · exact lowerC_ne_quote hcq he

/-! Stability of lower-after-third-pass. -/

theorem pyLower_identLit :
    pyLower identLit = quoteChar :: ("identifier".toList ++ [quoteChar]) := by decide

theorem quote_notmem_identifier : quoteChar ∉ "identifier".toList := by decide

theorem qstab_fuel : ∀ (n : Nat) (s : Str), s.length ≤ n →
    pyLower (p3 (pyLower (p3 s))) = pyLower (p3 s) := by
  intro n
  induction n with
  | zero =>
    intro s hs
    have : s = [] := List.length_eq_zero.mp (Nat.le_zero.mp hs)
    subst this
    rfl
  | succ n ih =>
    intro s hs
    match s with
    | [] => rfl
    | c :: r =>
      simp only [List.length_cons] at hs
      by_cases hc : c = quoteChar
      · subst hc
        rcases hq : splitQuote r with _ | ⟨x, y⟩
        · have hrq : quoteChar ∉ r := splitQuote_none_iff.mp hq
          rw [p3_quote_none hq, p3_eq_self_of_notmem hrq, pyLower_cons, lowerC_quote]
          have hlq : quoteChar ∉ pyLower r := notmem_quote_pyLower hrq
          rw [p3_quote_none (splitQuote_none_iff.mpr hlq), p3_eq_self_of_notmem hlq,
            pyLower_cons, lowerC_quote, pyLower_idem]
        · rw [p3_quote_some hq]
          rw [pyLower_append identLit (p3 y), pyLower_identLit]
          rw [show (quoteChar :: ("identifier".toList ++ [quoteChar])) ++ pyLower (p3 y)
              = quoteChar :: ("identifier".toList ++ quoteChar :: pyLower (p3 y)) from by
            rw [List.cons_append, List.append_assoc, List.singleton_append]]
          rw [p3_quote_some (splitQuote_append_of_notmem _ quote_notmem_identifier)]
          rw [pyLower_append identLit (p3 (pyLower (p3 y)))]
          have hy : y.length ≤ n := by
            have := splitQuote_length hq; omega
          rw [ih y hy, pyLower_identLit]
          rw [List.cons_append, List.append_assoc, List.singleton_append]
      · rw [p3_cons_ne r hc, pyLower_cons]
        have hlc : lowerC c ≠ quoteChar := lowerC_ne_quote hc
        rw [p3_cons_ne _ hlc, pyLower_cons, lowerC_idem, ih r (by omega)]

theorem qstab (s : Str) : pyLower (p3 (pyLower (p3 s))) = pyLower (p3 s) :=
  qstab_fuel s.length s (le_refl _)

theorem norm_core_stable (s : Str) :
    pyLower (pyStrip (p3 (pyLower (pyStrip (p3 s))))) = pyLower (pyStrip (p3 s)) := by
  rw [pyStrip_p3 s]
  rw [pyStrip_p3 (pyLower (p3 (pyStrip s)))]
  rw [← pyLower_pyStrip (p3 (pyStrip s))]
  rw [pyStrip_p3 (pyStrip s), pyStrip_idem]
  exact qstab (pyStrip s)

/-! Membership transport: normalization creates no digits from digit-free input. -/

theorem mem_p3_fuel : ∀ (n : Nat) (l : Str), l.length ≤ n →
    ∀ c ∈ p3 l, c ∈ l ∨ c ∈ identLit := by
  intro n
  induction n with
  | zero =>
    intro l hl c hc
    have : l = [] := List.length_eq_zero.mp (Nat.le_zero.mp hl)
    subst this
    rw [p3_nil] at hc
    simp at hc
  | succ n ih =>
    intro l hl c hc
    match l with
    | [] => rw [p3_nil] at hc; simp at hc
    | d :: r =>
      simp only [List.length_cons] at hl
      by_cases hd : d = quoteChar
      · subst hd
        rcases hs : splitQuote r with _ | ⟨x, y⟩
        · rw [p3_quote_none hs] at hc
          rcases List.mem_cons.mp hc with he | he
          · left; exact he ▸ List.mem_cons_self _ _
          · rcases ih r (by omega) c he with h1 | h1
            · left; exact List.mem_cons_of_mem _ h1
            · right; exact h1
        · rw [p3_quote_some hs] at hc
          rcases List.mem_append.mp hc with he | he
          · right; exact he
          · have hy : y.length ≤ n := by
              have := splitQuote_length hs; omega
            rcases ih y hy c he with h1 | h1
            · left
              obtain ⟨hdec, _⟩ := splitQuote_eq_some hs
              rw [hdec]
              exact List.mem_cons_of_mem _ (List.mem_append.mpr
                (Or.inr (List.mem_cons_of_mem _ h1)))
            · right; exact h1
      · rw [p3_cons_ne r hd] at hc
        rcases List.mem_cons.mp hc with he | he
        · left; exact he ▸ List.mem_cons_self _ _
        · rcases ih r (by omega) c he with h1 | h1
          · left; exact List.mem_cons_of_mem _ h1
          · right; exact h1

theorem mem_p3 {l : Str} {c : Char} (hc : c ∈ p3 l) : c ∈ l ∨ c ∈ identLit :=
  mem_p3_fuel l.length l (le_refl _) c hc

theorem mem_pyStrip {l : Str} {c : Char} (h : c ∈ pyStrip l) : c ∈ l := by
  rw [pyStrip, dropTrail] at h
  have h1 : c ∈ ((l.dropWhile isSpaceC).reverse.dropWhile isSpaceC) :=
    List.mem_reverse.mp h
  have h2 : c ∈ (l.dropWhile isSpaceC).reverse := (List.dropWhile_sublist _).subset h1
  have h3 : c ∈ l.dropWhile isSpaceC := List.mem_reverse.mp h2
  exact (List.dropWhile_sublist _).subset h3

theorem identLit_nodigit : ∀ c ∈ identLit, c.isDigit = false := by decide

theorem df_normalize {m : Str} (h : ∀ c ∈ m, c.isDigit = false) :
    ∀ c ∈ normalize_error_message m, c.isDigit = false := by
  intro c hc
  rw [normalize_error_message, p1_eq_self h, p2_eq_self h] at hc
  rw [pyLower, List.mem_map] at hc
  obtain ⟨c', hc', he⟩ := hc
  have hmem := mem_pyStrip hc'
  have hdf : c'.isDigit = false := by
    rcases mem_p3 hmem with h1 | h1
    · exact h c' h1
    · exact identLit_nodigit c' h1
  rw [← he, lowerC_isDigit]
  exact hdf

/-- C10 counterexample: the normalizer is not idempotent on the message
`LINE 5` - the first application lowercases it, after which the case-sensitive
`line N` pass fires and changes the result again. -/
theorem claim_C10_counterexample :
    normalize_error_message (normalize_error_message ("LINE 5".toList)) ≠
      normalize_error_message ("LINE 5".toList) := by decide

/-- C10 (amended): on digit-free raw messages the Error Normalizer is
idempotent: normalize(normalize(m)) = normalize(m). -/
theorem claim_C10 (m : Str) (h : ∀ c ∈ m, c.isDigit = false) :
    normalize_error_message (normalize_error_message m) = normalize_error_message m := by
  have hN := df_normalize h
  have hm : normalize_error_message m = pyLower (pyStrip (p3 m)) := by
    rw [normalize_error_message, p1_eq_self h, p2_eq_self h]
  have houter : normalize_error_message (normalize_error_message m)
      = pyLower (pyStrip (p3 (pyLower (pyStrip (p3 m))))) := by
    rw [show normalize_error_message (normalize_error_message m)
        = pyLower (pyStrip (p3 (p2 (p1 (normalize_error_message m))))) from rfl]
    rw [p1_eq_self hN, p2_eq_self hN, hm]
  rw [houter, hm]
  exact norm_core_stable m

/-- C10 witness. -/
theorem claim_C10_witness :
    (∀ c ∈ ("'x' - undeclared identifier".toList), c.isDigit = false) ∧
      normalize_error_message (normalize_error_message ("'x' - undeclared identifier".toList)) =
        normalize_error_message ("'x' - undeclared identifier".toList) :=
  ⟨by decide, claim_C10 _ (by decide)⟩


/-! ### Supporting lemmas for the token model (claim C1). -/

theorem digitsHead_cons_zero {c : Char} (r : Str) (hc : c.isDigit = false) :
    digitsHead (c :: r) = 0 := by
  simp [digitsHead, hc]

theorem head_not_digit_of_digitsHead_zero {l : Str} {c : Char} (h : digitsHead l = 0)
    (hc : l.head? = some c) : c.isDigit = false := by
  cases l with
  | nil => simp at hc
  | cons d r =>
    simp only [List.head?_cons, Option.some.injEq] at hc
    subst hc
    by_contra hd
    simp only [Bool.not_eq_false] at hd
    simp [digitsHead, hd] at h

theorem digitsHead_append_digits {d : Str} (r : Str) (hd : ∀ c ∈ d, c.isDigit = true) :
    digitsHead (d ++ r) = d.length + digitsHead r := by
  induction d with
  | nil => simp
  | cons c d' ih =>
    rw [List.cons_append]
    have hc : c.isDigit = true := hd c (List.mem_cons_self c d')
    have ih2 := ih (fun x hx => hd x (List.mem_cons_of_mem c hx))
    simp only [digitsHead, hc, if_true, ih2, List.length_cons]
    omega

theorem tryLoc_loc (a b : Nat) (r : Str) :
    tryLoc (natDigits a ++ ',' :: (natDigits b ++ ')' :: r)) = some r := by
  have hcomma : (',').isDigit = false := by decide
  have hparen : (')').isDigit = false := by decide
  have h1 : digitsHead (natDigits a ++ ',' :: (natDigits b ++ ')' :: r))
      = (natDigits a).length := by
    rw [digitsHead_append_digits _ (natDigits_all_digits a),
      digitsHead_cons_zero _ hcomma, Nat.add_zero]
  have hlen : ¬ ((natDigits a).length = 0) :=
    fun h0 => natDigits_ne_nil a (List.length_eq_zero.mp h0)
  have h2 : digitsHead (natDigits b ++ ')' :: r) = (natDigits b).length := by
    rw [digitsHead_append_digits _ (natDigits_all_digits b),
      digitsHead_cons_zero _ hparen, Nat.add_zero]
  have hlen2 : ¬ ((natDigits b).length = 0) :=
    fun h0 => natDigits_ne_nil b (List.length_eq_zero.mp h0)
  rw [tryLoc, h1, if_neg hlen, List.drop_left]
  simp only [h2, if_neg hlen2, List.drop_left]

theorem p1_loc_append (a b : Nat) (r : Str) :
    p1 ('(' :: (natDigits a ++ ',' :: (natDigits b ++ ')' :: r))) = p1 r :=
  p1_paren_some (tryLoc_loc a b r)

theorem p1_append_noparen {x : Str} (r : Str) (hx : '(' ∉ x) :
    p1 (x ++ r) = x ++ p1 r := by
  induction x with
  | nil => rfl
  | cons c x' ih =>
    have hc : c ≠ '(' := fun he => hx (he ▸ List.mem_cons_self c x')
    rw [List.cons_append, p1_cons_ne _ hc, ih (fun hm => hx (List.mem_cons_of_mem c hm))]
    rfl

theorem p1_append_df {r : Str} (hr : digitsHead r = 0) :
    ∀ x : Str, (∀ c ∈ x, c.isDigit = false) → p1 (x ++ r) = x ++ p1 r := by
  intro x
  induction x with
  | nil => intro _; rfl
  | cons c x' ih =>
    intro hx
    have htail : ∀ d ∈ x', d.isDigit = false := fun d hd => hx d (List.mem_cons_of_mem c hd)
    by_cases hc : c = '('
    · subst hc
      have hdz : digitsHead (x' ++ r) = 0 := by
        apply digitsHead_eq_zero_head
        intro d hd
        rcases hx2 : x' with _ | ⟨e, t⟩
        · rw [hx2, List.nil_append] at hd
          exact head_not_digit_of_digitsHead_zero hr hd
        · rw [hx2, List.cons_append, List.head?_cons] at hd
          simp only [Option.some.injEq] at hd
          subst hd
          exact htail _ (hx2 ▸ List.mem_cons_self e t)
      rw [List.cons_append, p1_paren_none (tryLoc_none_of_zero hdz), ih htail]
      rfl
    · rw [List.cons_append, p1_cons_ne _ hc, ih htail]
      rfl

theorem df5_append {a y : Str} (ha : ∀ c ∈ a, c.isDigit = false)
    (hy : ∀ c ∈ y.take 5, c.isDigit = false) :
    ∀ c ∈ (a ++ y).take 5, c.isDigit = false := by
  intro c hc
  rw [List.take_append_eq_append_take] at hc
  rcases List.mem_append.mp hc with h1 | h1
  · exact ha c (List.take_subset _ _ h1)
  · have h2 : y.take (5 - a.length) = (y.take 5).take (5 - a.length) := by
      rw [List.take_take, Nat.min_eq_left (by omega)]
    rw [h2] at h1
    exact hy c (List.take_subset _ _ h1)

theorem head?_mem_take5 {l : Str} {c : Char} (h : l.head? = some c) : c ∈ l.take 5 := by
  cases l with
  | nil => simp at h
  | cons d r =>
    simp only [List.head?_cons, Option.some.injEq] at h
    subst h
    rw [show (d :: r).take 5 = d :: r.take 4 from rfl]
    exact List.mem_cons_self _ _

theorem head?_drop_eq {α : Type} (l : List α) (n : Nat) : (l.drop n).head? = l[n]? := by
  rw [List.head?_eq_getElem?, List.getElem?_drop, Nat.add_zero]

theorem digitsHead_drop5 {v r : Str} (hv : ∀ c ∈ v, c.isDigit = false)
    (hr : ∀ c ∈ r.take 5, c.isDigit = false) (hne : v ≠ []) :
    digitsHead ((v ++ r).drop 5) = 0 := by
  apply digitsHead_eq_zero_head
  intro c hc
  rw [List.drop_append_eq_append_drop] at hc
  rcases hvd : v.drop 5 with _ | ⟨d, t⟩
  · rw [hvd, List.nil_append] at hc
    have hlen : v.length ≤ 5 := by
      have h5 := congrArg List.length hvd
      simp only [List.length_drop, List.length_nil] at h5
      omega
    have hpos : 0 < v.length := List.length_pos.mpr hne
    rw [head?_drop_eq] at hc
    apply hr
    have h2 : (r.take 5)[5 - v.length]? = some c := by
      rw [List.getElem?_take_of_lt (by omega)]
      exact hc
    exact List.getElem?_mem h2
  · rw [hvd] at hc
    simp only [List.cons_append, List.head?_cons, Option.some.injEq] at hc
    subst hc
    have hd : d ∈ v.drop 5 := hvd ▸ List.mem_cons_self d t
    exact hv _ (List.drop_subset 5 v hd)

theorem p2_append_df {r : Str} (hr : ∀ c ∈ r.take 5, c.isDigit = false) :
    ∀ x : Str, (∀ c ∈ x, c.isDigit = false) → p2 (x ++ r) = x ++ p2 r := by
  intro x
  induction x with
  | nil => intro _; rfl
  | cons c x' ih =>
    intro hx
    show p2 (c :: (x' ++ r)) = c :: (x' ++ p2 r)
    rw [p2_nomatch, ih (fun d hd => hx d (List.mem_cons_of_mem c hd))]
    rintro ⟨h1, h2⟩
    apply h2
    rw [show c :: (x' ++ r) = (c :: x') ++ r from rfl]
    exact digitsHead_drop5 hx hr (by simp)

theorem p2_line_append (n : Nat) {r : Str} (hr : digitsHead r = 0) :
    p2 (lineLit ++ (natDigits n ++ r)) = lineX ++ p2 r := by
  have hd5 : ('l' :: ("ine ".toList ++ (natDigits n ++ r))).drop 5 = natDigits n ++ r := rfl
  have hdig : digitsHead (('l' :: ("ine ".toList ++ (natDigits n ++ r))).drop 5)
      = (natDigits n).length := by
    rw [hd5, digitsHead_append_digits _ (natDigits_all_digits n), hr, Nat.add_zero]
  have hlen : (natDigits n).length ≠ 0 :=
    fun h0 => natDigits_ne_nil n (List.length_eq_zero.mp h0)
  have hmain := @p2_match 'l' ("ine ".toList ++ (natDigits n ++ r)) rfl
    (by rw [hdig]; simpa using hlen)
  rw [show lineLit ++ (natDigits n ++ r)
      = 'l' :: ("ine ".toList ++ (natDigits n ++ r)) from rfl]
  rw [hmain, hdig]
  congr 1
  have hsplit : ('l' :: ("ine ".toList ++ (natDigits n ++ r)))
      = (lineLit ++ natDigits n) ++ r := by
    rw [List.append_assoc]
    rfl
  rw [hsplit, show 5 + (natDigits n).length = (lineLit ++ natDigits n).length from by
    rw [List.length_append]
    rfl]
  rw [List.drop_left]

theorem quoted_df {s : Str} (hs : ∀ c ∈ s, c.isDigit = false) :
    ∀ c ∈ quoteChar :: (s ++ [quoteChar]), c.isDigit = false := by
  intro c hc
  rcases List.mem_cons.mp hc with he | he
  · subst he; decide
  · rcases List.mem_append.mp he with h1 | h1
    · exact hs c h1
    · simp only [List.mem_singleton] at h1
      subst h1; decide

/-! ### The three passes on rendered token lists. -/

theorem render_digitsHead {ts : List Tok} (h : ∀ t ∈ ts, tokWf t) :
    digitsHead (render ts) = 0 := by
  induction ts with
  | nil => rfl
  | cons t ts' ih =>
    have ht := h t (List.mem_cons_self t ts')
    have hts' : ∀ u ∈ ts', tokWf u := fun u hu => h u (List.mem_cons_of_mem t hu)
    cases t with
    | plain s =>
      rw [show render (Tok.plain s :: ts') = s ++ render ts' from rfl]
      rcases hs : s with _ | ⟨c, s'⟩
      · rw [List.nil_append]; exact ih hts'
      · rw [List.cons_append]
        exact digitsHead_cons_zero _ (ht.1 c (hs ▸ List.mem_cons_self c s'))
    | loc a b =>
      rw [show render (Tok.loc a b :: ts')
          = '(' :: ((natDigits a ++ ',' :: (natDigits b ++ [')'])) ++ render ts') from rfl]
      exact digitsHead_cons_zero _ (by decide)
    | lineTok n =>
      rw [show render (Tok.lineTok n :: ts')
          = 'l' :: (("ine ".toList ++ natDigits n) ++ render ts') from rfl]
      exact digitsHead_cons_zero _ (by decide)
    | quoted s =>
      rw [show render (Tok.quoted s :: ts')
          = quoteChar :: ((s ++ [quoteChar]) ++ render ts') from rfl]
      exact digitsHead_cons_zero _ (by decide)

theorem render1_df5 {ts : List Tok} (h : ∀ t ∈ ts, tokWf t) :
    ∀ c ∈ (render1 ts).take 5, c.isDigit = false := by
  induction ts with
  | nil => intro c hc; simp [render1] at hc
  | cons t ts' ih =>
    have ht := h t (List.mem_cons_self t ts')
    have hts' : ∀ u ∈ ts', tokWf u := fun u hu => h u (List.mem_cons_of_mem t hu)
    cases t with
    | plain s =>
      rw [show render1 (Tok.plain s :: ts') = s ++ render1 ts' from rfl]
      exact df5_append ht.1 (ih hts')
    | loc a b =>
      rw [show render1 (Tok.loc a b :: ts') = render1 ts' from rfl]
      exact ih hts'
    | lineTok n =>
      rw [show render1 (Tok.lineTok n :: ts')
          = (lineLit ++ natDigits n) ++ render1 ts' from rfl]
      intro c hc
      rw [show ((lineLit ++ natDigits n) ++ render1 ts')
          = lineLit ++ (natDigits n ++ render1 ts') from by rw [List.append_assoc]] at hc
      rw [show (lineLit ++ (natDigits n ++ render1 ts')).take 5 = lineLit from rfl] at hc
      exact (by decide : ∀ c ∈ lineLit, c.isDigit = false) c hc
    | quoted s =>
      rw [show render1 (Tok.quoted s :: ts')
          = (quoteChar :: (s ++ [quoteChar])) ++ render1 ts' from rfl]
      exact df5_append (quoted_df ht.1) (ih hts')

theorem step1_p1_render {ts : List Tok} (h : ∀ t ∈ ts, tokWf t) :
    p1 (render ts) = render1 ts := by
  induction ts with
  | nil => rfl
  | cons t ts' ih =>
    have ht := h t (List.mem_cons_self t ts')
    have hts' : ∀ u ∈ ts', tokWf u := fun u hu => h u (List.mem_cons_of_mem t hu)
    cases t with
    | plain s =>
      rw [show render (Tok.plain s :: ts') = s ++ render ts' from rfl,
        p1_append_df (render_digitsHead hts') s ht.1, ih hts']
      rfl
    | loc a b =>
      rw [show render (Tok.loc a b :: ts')
          = '(' :: (natDigits a ++ ',' :: (natDigits b ++ ')' :: render ts')) from by
        rw [show render (Tok.loc a b :: ts')
            = ('(' :: (natDigits a ++ ',' :: (natDigits b ++ [')']))) ++ render ts' from rfl]
        simp [List.cons_append, List.append_assoc]]
      rw [p1_loc_append, ih hts']
      rfl
    | lineTok n =>
      have hnp : '(' ∉ lineLit ++ natDigits n := by
        intro hm
        rcases List.mem_append.mp hm with h1 | h1
        · exact (by decide : '(' ∉ lineLit) h1
        · exact absurd (natDigits_all_digits n _ h1) (by decide)
      rw [show render (Tok.lineTok n :: ts') = (lineLit ++ natDigits n) ++ render ts' from rfl,
        p1_append_noparen _ hnp, ih hts']
      rfl
    | quoted s =>
      rw [show render (Tok.quoted s :: ts')
          = (quoteChar :: (s ++ [quoteChar])) ++ render ts' from rfl,
        p1_append_df (render_digitsHead hts') _ (quoted_df ht.1), ih hts']
      rfl

theorem step2_p2_render1 {ts : List Tok} (h : ∀ t ∈ ts, tokWf t) :
    p2 (render1 ts) = render2 ts := by
  induction ts with
  | nil => rfl
  | cons t ts' ih =>
    have ht := h t (List.mem_cons_self t ts')
    have hts' : ∀ u ∈ ts', tokWf u := fun u hu => h u (List.mem_cons_of_mem t hu)
    cases t with
    | plain s =>
      rw [show render1 (Tok.plain s :: ts') = s ++ render1 ts' from rfl,
        p2_append_df (render1_df5 hts') s ht.1, ih hts']
      rfl
    | loc a b =>
      rw [show render1 (Tok.loc a b :: ts') = render1 ts' from rfl, ih hts']
      rfl
    | lineTok n =>
      have hr0 : digitsHead (render1 ts') = 0 := by
        apply digitsHead_eq_zero_head
        intro d hd
        exact render1_df5 hts' d (head?_mem_take5 hd)
      rw [show render1 (Tok.lineTok n :: ts')
          = lineLit ++ (natDigits n ++ render1 ts') from by
        rw [show render1 (Tok.lineTok n :: ts')
            = (lineLit ++ natDigits n) ++ render1 ts' from rfl, List.append_assoc]]
      rw [p2_line_append n hr0, ih hts']
      rfl
    | quoted s =>
      rw [show render1 (Tok.quoted s :: ts')
          = (quoteChar :: (s ++ [quoteChar])) ++ render1 ts' from rfl,
        p2_append_df (render1_df5 hts') _ (quoted_df ht.1), ih hts']
      rfl

theorem step3_p3_render2 {ts : List Tok} (h : ∀ t ∈ ts, tokWf t) :
    p3 (render2 ts) = canonRender ts := by
  induction ts with
  | nil => rfl
  | cons t ts' ih =>
    have ht := h t (List.mem_cons_self t ts')
    have hts' : ∀ u ∈ ts', tokWf u := fun u hu => h u (List.mem_cons_of_mem t hu)
    cases t with
    | plain s =>
      rw [show render2 (Tok.plain s :: ts') = s ++ render2 ts' from rfl,
        p3_append_left _ ht.2, ih hts']
      rfl
    | loc a b =>
      rw [show render2 (Tok.loc a b :: ts') = render2 ts' from rfl, ih hts']
      rfl
    | lineTok n =>
      rw [show render2 (Tok.lineTok n :: ts') = lineX ++ render2 ts' from rfl,
        p3_append_left _ (by decide : quoteChar ∉ lineX), ih hts']
      rfl
    | quoted s =>
      rw [show render2 (Tok.quoted s :: ts')
          = quoteChar :: (s ++ quoteChar :: render2 ts') from by
        rw [show render2 (Tok.quoted s :: ts')
            = (quoteChar :: (s ++ [quoteChar])) ++ render2 ts' from rfl,
          List.cons_append, List.append_assoc, List.singleton_append]]
      rw [p3_quote_some (splitQuote_append_of_notmem _ ht.2), ih hts']
      rfl

theorem norm_render {ts : List Tok} (h : ∀ t ∈ ts, tokWf t) :
    normalize_error_message (render ts) = pyLower (pyStrip (canonRender ts)) := by
  rw [normalize_error_message, step1_p1_render h, step2_p2_render1 h, step3_p3_render2 h]

theorem canonRender_map_canonTok : ∀ ts : List Tok,
    canonRender (ts.map canonTok) = canonRender ts := by
  intro ts
  induction ts with
  | nil => rfl
  | cons t ts' ih =>
    rw [List.map_cons, show canonRender (canonTok t :: List.map canonTok ts')
        = canonRenderTok (canonTok t) ++ canonRender (List.map canonTok ts') from rfl, ih]
    cases t <;> rfl

/-- C1: raw messages that differ only in `(line,col)` location tokens, in the
number of a `line N` token, or in the contents of single-quoted identifier
tokens (same canonical token skeleton, well-formed segments) normalize to
identical signatures; and the normalizer still distinguishes the differently
shaped messages `';' - semicolon expected (12,4)` and
`'x' - undeclared identifier (3,7)`. -/
theorem claim_C1 :
    (∀ ts ts' : List Tok, (∀ t ∈ ts, tokWf t) → (∀ t ∈ ts', tokWf t) →
        ts.map canonTok = ts'.map canonTok →
        normalize_error_message (render ts) = normalize_error_message (render ts')) ∧
      normalize_error_message ("';' - semicolon expected (12,4)".toList) ≠
        normalize_error_message ("'x' - undeclared identifier (3,7)".toList) := by
  constructor
  · intro ts ts' h h' hskel
    rw [norm_render h, norm_render h']
    rw [← canonRender_map_canonTok ts, ← canonRender_map_canonTok ts', hskel]
  · decide
